import Mathlib

/-!
# Verification of the minesweeper board engine

Shallow embedding of `src/lib/minesweeper.ts` (the pure board engine) and of
the game reducer in `src/components/Game.tsx`, with theorems settling the
frozen claims about them.

Conventions of the embedding:
* A TypeScript array of arrays becomes `List (List Cell)`.
* Out-of-bounds reads crash in the source (`undefined.isRevealed` throws);
  the total model returns the inert `oobCell`, which is marked revealed so
  that no algorithm ever treats an out-of-bounds position as revealable.
  All claims are stated at in-bounds coordinates, where `oobCell` never
  surfaces.
* `Math.random()` is modelled by an explicit stream `js : Nat → Nat` of
  draws; the source's `Math.floor(Math.random() * (i + 1))` always lies in
  `[0, i]`, modelled as `js k % (i + 1)`.
* The queue-based flood fill is given explicit fuel; the fuel
  `9 * unrevealedCount b + 1` dominates the loop measure
  `9 * unrevealed + queue length` (see `bfs_characterization`, whose
  induction carries that bound), so the fuelled function drains its queue
  exactly as the source's unbounded `while` loop does.
-/

namespace Minesweeper

/-- `CellState` from `src/lib/minesweeper.ts`. -/
structure Cell where
  isMine : Bool
  isRevealed : Bool
  isFlagged : Bool
  adjacentMines : Nat
deriving DecidableEq

/-- `makeCell()`: blank cell. -/
def makeCell : Cell :=
  { isMine := false, isRevealed := false, isFlagged := false, adjacentMines := 0 }

/-- Result of an out-of-bounds read (a crash in the source): an inert cell,
marked revealed so it is never revealable, never a mine, never flagged. -/
def oobCell : Cell :=
  { isMine := false, isRevealed := true, isFlagged := false, adjacentMines := 0 }

abbrev Board := List (List Cell)

abbrev Pos := Nat × Nat

/-- `board[r][c]`, total. -/
def getCell (b : Board) (p : Pos) : Cell :=
  (b.getD p.1 []).getD p.2 oobCell

/-- Number of rows, `board.length`. -/
def rowsOf (b : Board) : Nat := b.length

/-- Number of columns, `board[0].length`. -/
def colsOf (b : Board) : Nat := (b.getD 0 []).length

/-- The board is a rectangular `rows × cols` grid. -/
def Rect (b : Board) (rows cols : Nat) : Prop :=
  b.length = rows ∧ ∀ row ∈ b, row.length = cols

instance (b : Board) (rows cols : Nat) : Decidable (Rect b rows cols) := by
  unfold Rect; infer_instance

/-- Index-aware map over every cell of the board (the `board.map((row, r) =>
row.map((cell, c) => ...))` idiom of the source). -/
def mapRow (f : Nat → Nat → Cell → Cell) (r : Nat) : Nat → List Cell → List Cell
  | _, [] => []
  | c, cell :: cs => f r c cell :: mapRow f r (c + 1) cs

def mapRows (f : Nat → Nat → Cell → Cell) : Nat → Board → Board
  | _, [] => []
  | r, row :: rest => mapRow f r 0 row :: mapRows f (r + 1) rest

def mapCells (f : Nat → Nat → Cell → Cell) (b : Board) : Board :=
  mapRows f 0 b

/-- The pointwise update idiom of the source (`ri === row && ci === col ?
... : cell`, and the mutation `next[r][c].f = v` on a fresh copy): apply
`g` at position `p`, keep every other cell. -/
def pointUpd (g : Cell → Cell) (p : Pos) : Nat → Nat → Cell → Cell :=
  fun r c cell => if r = p.1 ∧ c = p.2 then g cell else cell

/-- The eight `(dr, dc)` offsets, in the order the source's double loop
produces them (`dr` outer from -1 to 1, `dc` inner, skipping `(0,0)`). -/
def offsets : List (Int × Int) :=
  [(-1, -1), (-1, 0), (-1, 1), (0, -1), (0, 1), (1, -1), (1, 0), (1, 1)]

/-- `neighbors(board, row, col)`: all in-bounds Chebyshev neighbors. -/
def neighbors (b : Board) (row col : Nat) : List Pos :=
  let rows := b.length
  let cols := (b.getD 0 []).length
  offsets.filterMap fun d =>
    let r : Int := (row : Int) + d.1
    let c : Int := (col : Int) + d.2
    if 0 ≤ r ∧ r < (rows : Int) ∧ 0 ≤ c ∧ c < (cols : Int) then
      some (r.toNat, c.toNat)
    else none

/-- `makeEmptyBoard(rows, cols)`. -/
def makeEmptyBoard (rows cols : Nat) : Board :=
  List.replicate rows (List.replicate cols makeCell)

/-! ## placeMines -/

/-- One Fisher–Yates swap `[a[i], a[j]] = [a[j], a[i]]` on a list. -/
def swapL (l : List Nat) (i j : Nat) : List Nat :=
  (l.set i (l.getD j 0)).set j (l.getD i 0)

/-- The Fisher–Yates downward loop: `for (let i = n-1; i > 0; i--) swap(i, j)`
with `j = js i % (i+1)` modelling `Math.floor(Math.random() * (i + 1))`. -/
def fyLoop (js : Nat → Nat) (l : List Nat) : Nat → List Nat
  | 0 => l
  | i + 1 => fyLoop js (swapL l (i + 1) (js (i + 1) % (i + 2))) i

def fisherYates (js : Nat → Nat) (l : List Nat) : List Nat :=
  fyLoop js l (l.length - 1)

/-- The excluded linear indices: the safe cell and all of its neighbors. -/
def excludedIdxs (b : Board) (safeRow safeCol : Nat) : List Nat :=
  (safeRow * colsOf b + safeCol) ::
    (neighbors b safeRow safeCol).map fun p => p.1 * colsOf b + p.2

/-- The candidate linear indices, in increasing order. -/
def candidateIdxs (b : Board) (safeRow safeCol : Nat) : List Nat :=
  (List.range (rowsOf b * colsOf b)).filter
    fun i => ¬ i ∈ excludedIdxs b safeRow safeCol

/-- The linear indices receiving a mine: the first `mines` entries of the
shuffled candidate list (`candidates.slice(0, mines)`). -/
def minePicks (js : Nat → Nat) (b : Board) (mines : Nat)
    (safeRow safeCol : Nat) : List Nat :=
  (fisherYates js (candidateIdxs b safeRow safeCol)).take mines

/-- `placeMines(board, mines, safeRow, safeCol)`, with the random draws
made explicit as `js`. -/
def placeMines (js : Nat → Nat) (b : Board) (mines : Nat)
    (safeRow safeCol : Nat) : Board :=
  mapCells (fun r c cell =>
    { cell with isMine := r * colsOf b + c ∈ minePicks js b mines safeRow safeCol }) b

/-! ## computeAdjacent -/

/-- `computeAdjacent(board)`. -/
def computeAdjacent (b : Board) : Board :=
  mapCells (fun r c cell =>
    if cell.isMine then { cell with adjacentMines := 0 }
    else { cell with
      adjacentMines :=
        ((neighbors b r c).filter fun n => (getCell b n).isMine).length }) b

/-! ## revealCell (queue-based flood fill) -/

/-- Mark one cell revealed (`next[r][c].isRevealed = true`). -/
def reveal1 (b : Board) (p : Pos) : Board :=
  mapCells (pointUpd (fun cell => { cell with isRevealed := true }) p) b

/-- Number of unrevealed cells on the board (the flood fill's measure). -/
def unrevealedCount (b : Board) : Nat :=
  (b.map fun row => row.countP fun cell => !cell.isRevealed).sum

/-- The inner neighbor loop of the flood fill: reveal each not-yet-revealed,
unflagged position and record it for the queue, sequentially. -/
def revealNbrs : Board → List Pos → Board × List Pos
  | b, [] => (b, [])
  | b, n :: ns =>
    if ¬ (getCell b n).isRevealed ∧ ¬ (getCell b n).isFlagged then
      let res := revealNbrs (reveal1 b n) ns
      (res.1, n :: res.2)
    else revealNbrs b ns

/-- The `while (queue.length > 0)` loop, with explicit fuel. -/
def bfsFuel : Nat → Board → List Pos → Board
  | 0, b, _ => b
  | _ + 1, b, [] => b
  | fuel + 1, b, p :: rest =>
    if (getCell b p).adjacentMines = 0 ∧ ¬ (getCell b p).isMine then
      let res := revealNbrs b (neighbors b p.1 p.2)
      bfsFuel fuel res.1 (rest ++ res.2)
    else bfsFuel fuel b rest

/-- `revealCell(board, row, col)`.  The fuel `9 * unrevealedCount b + 1`
dominates the loop measure `9 * unrevealed + queue length`, so the loop
always drains its queue before the fuel runs out. -/
def revealCell (b : Board) (row col : Nat) : Board :=
  if (getCell b (row, col)).isRevealed ∨ (getCell b (row, col)).isFlagged then b
  else bfsFuel (9 * unrevealedCount b + 1) (reveal1 b (row, col)) [(row, col)]

/-! ## toggleFlag, chordReveal, checkWin, revealAllMines -/

/-- `toggleFlag(board, row, col)`. -/
def toggleFlag (b : Board) (row col : Nat) : Board :=
  if (getCell b (row, col)).isRevealed then b
  else mapCells (pointUpd (fun c => { c with isFlagged := !c.isFlagged }) (row, col)) b

/-- `chordReveal(board, row, col)`. -/
def chordReveal (b : Board) (row col : Nat) : Board :=
  if ¬ (getCell b (row, col)).isRevealed ∨ (getCell b (row, col)).adjacentMines = 0 then b
  else if ((neighbors b row col).filter fun n => (getCell b n).isFlagged).length ≠
      (getCell b (row, col)).adjacentMines then b
  else
    (neighbors b row col).foldl (fun next n =>
      if ¬ (getCell b n).isFlagged ∧ ¬ (getCell b n).isRevealed then
        revealCell next n.1 n.2
      else next) b

/-- Number of revealed cells on the board. -/
def revealedCount (b : Board) : Nat :=
  (b.map fun row => row.countP fun cell => cell.isRevealed).sum

/-- Total number of cells on the board. -/
def totalCount (b : Board) : Nat :=
  (b.map fun row => row.length).sum

/-- `checkWin(board, totalMines)`; the source compares JS numbers, so the
subtraction is over `Int`. -/
def checkWin (b : Board) (totalMines : Nat) : Bool :=
  (revealedCount b : Int) = (totalCount b : Int) - (totalMines : Int)

/-- `revealAllMines(board)`. -/
def revealAllMines (b : Board) : Board :=
  mapCells (fun _ _ cell =>
    if cell.isMine then { cell with isRevealed := true } else cell) b

/-! ## Game state machine (`src/components/Game.tsx`) -/

inductive GameStatus where
  | idle | playing | won | lost
deriving DecidableEq

inductive Difficulty where
  | beginner | intermediate | expert
deriving DecidableEq

structure DiffCfg where
  rows : Nat
  cols : Nat
  mines : Nat
deriving DecidableEq

/-- The `DIFFICULTIES` table. -/
def DIFFICULTIES : Difficulty → DiffCfg
  | .beginner => ⟨9, 9, 10⟩
  | .intermediate => ⟨16, 16, 40⟩
  | .expert => ⟨16, 30, 99⟩

structure GameState where
  board : Board
  status : GameStatus
  difficulty : Difficulty
  flagCount : Int
  elapsed : Nat
  startTime : Option Nat
  losingCell : Option Pos
deriving DecidableEq

inductive Action where
  | reveal (row col : Nat)
  | flag (row col : Nat)
  | chord (row col : Nat)
  | newGame
  | setDifficulty (difficulty : Difficulty)
  | tick
deriving DecidableEq

/-- `makeInitialState(difficulty)`. -/
def makeInitialState (difficulty : Difficulty) : GameState :=
  let cfg := DIFFICULTIES difficulty
  { board := makeEmptyBoard cfg.rows cfg.cols
    status := .idle
    difficulty := difficulty
    flagCount := 0
    elapsed := 0
    startTime := none
    losingCell := none }

/-- The row-major scan of the `CHORD` branch: the first cell that is a
revealed mine, if any. -/
def findRevealedMineRow (r : Nat) : Nat → List Cell → Option Pos
  | _, [] => none
  | c, cell :: cs =>
    if cell.isMine ∧ cell.isRevealed then some (r, c)
    else findRevealedMineRow r (c + 1) cs

def findRevealedMineAux : Nat → Board → Option Pos
  | _, [] => none
  | r, row :: rest =>
    match findRevealedMineRow r 0 row with
    | some p => some p
    | none => findRevealedMineAux (r + 1) rest

def findRevealedMine (b : Board) : Option Pos :=
  findRevealedMineAux 0 b

/-- The `board` local of the `REVEAL` arm after the possible first-click
mine placement: on an idle state, mines are placed (avoiding the clicked
cell) and adjacency counts computed; otherwise the board is unchanged. -/
def placedBoard (js : Nat → Nat) (state : GameState) (row col : Nat) : Board :=
  if state.status = .idle then
    computeAdjacent
      (placeMines js state.board (DIFFICULTIES state.difficulty).mines row col)
  else state.board

/-- The reducer of `Game.tsx`, with the random draws of a first-click mine
placement made explicit as `js` (the source's `let` locals are inlined). -/
def reducer (js : Nat → Nat) (state : GameState) (action : Action) : GameState :=
  match action with
  | .newGame => makeInitialState state.difficulty
  | .setDifficulty difficulty => makeInitialState difficulty
  | .tick =>
    if state.status ≠ .playing then state
    else { state with elapsed := state.elapsed + 1 }
  | .flag row col =>
    if state.status = .won ∨ state.status = .lost then state
    else if (getCell state.board (row, col)).isRevealed then state
    else
      { state with
        board := toggleFlag state.board row col
        flagCount := state.flagCount +
          (if (getCell (toggleFlag state.board row col) (row, col)).isFlagged
            then 1 else -1)
        status := if state.status = .idle then .playing else state.status }
  | .reveal row col =>
    if state.status = .won ∨ state.status = .lost then state
    else if (getCell state.board (row, col)).isRevealed ∨
        (getCell state.board (row, col)).isFlagged then state
    else
      if (getCell (revealCell (placedBoard js state row col) row col)
          (row, col)).isMine then
        { state with
          board := revealAllMines
            (revealCell (placedBoard js state row col) row col)
          status := .lost
          losingCell := some (row, col) }
      else if checkWin (revealCell (placedBoard js state row col) row col)
          (DIFFICULTIES state.difficulty).mines then
        { state with
          board := revealCell (placedBoard js state row col) row col
          status := .won }
      else
        { state with
          board := revealCell (placedBoard js state row col) row col
          status := if state.status = .idle then .playing else state.status }
  | .chord row col =>
    if state.status ≠ .playing then state
    else
      match findRevealedMine (chordReveal state.board row col) with
      | some p =>
        { state with
          board := revealAllMines (chordReveal state.board row col)
          status := .lost
          losingCell := some p }
      | none =>
        if checkWin (chordReveal state.board row col)
            (DIFFICULTIES state.difficulty).mines then
          { state with board := chordReveal state.board row col, status := .won }
        else
          { state with board := chordReveal state.board row col }

/-! ## Basic lemmas: `getCell`, `mapCells`, shape -/

/-- Full in-bounds predicate: the column index is inside the row actually
stored at the row index (an out-of-range row index yields the empty row). -/
def InBounds (b : Board) (p : Pos) : Prop :=
  p.2 < (b.getD p.1 []).length

instance (b : Board) (p : Pos) : Decidable (InBounds b p) := by
  unfold InBounds; infer_instance

theorem getCell_of_not_inBounds {b : Board} {p : Pos} (h : ¬ InBounds b p) :
    getCell b p = oobCell := by
  unfold InBounds at h
  unfold getCell
  exact List.getD_eq_default _ _ (Nat.le_of_not_lt h)

theorem inBounds_of_mine {b : Board} {p : Pos}
    (h : (getCell b p).isMine = true) : InBounds b p := by
  by_contra hc
  rw [getCell_of_not_inBounds hc] at h
  simp [oobCell] at h

theorem inBounds_of_flagged {b : Board} {p : Pos}
    (h : (getCell b p).isFlagged = true) : InBounds b p := by
  by_contra hc
  rw [getCell_of_not_inBounds hc] at h
  simp [oobCell] at h

theorem inBounds_of_not_revealed {b : Board} {p : Pos}
    (h : (getCell b p).isRevealed = false) : InBounds b p := by
  by_contra hc
  rw [getCell_of_not_inBounds hc] at h
  simp [oobCell] at h

theorem mapRow_length (f : Nat → Nat → Cell → Cell) (r : Nat) :
    ∀ (c0 : Nat) (row : List Cell), (mapRow f r c0 row).length = row.length := by
  intro c0 row
  induction row generalizing c0 with
  | nil => rfl
  | cons cell cs ih => simp [mapRow, ih]

theorem mapRows_length (f : Nat → Nat → Cell → Cell) :
    ∀ (r0 : Nat) (b : Board), (mapRows f r0 b).length = b.length := by
  intro r0 b
  induction b generalizing r0 with
  | nil => rfl
  | cons row rest ih => simp [mapRows, ih]

theorem mapRows_getD (f : Nat → Nat → Cell → Cell) :
    ∀ (b : Board) (r0 r : Nat),
      (mapRows f r0 b).getD r [] = mapRow f (r0 + r) 0 (b.getD r []) := by
  intro b
  induction b with
  | nil => intro r0 r; simp [mapRows, mapRow]
  | cons row rest ih =>
    intro r0 r
    cases r with
    | zero => simp [mapRows]
    | succ n =>
      have harith : r0 + 1 + n = r0 + (n + 1) := by omega
      simpa [mapRows, harith] using ih (r0 + 1) n

theorem mapRow_getD (f : Nat → Nat → Cell → Cell) (r : Nat) :
    ∀ (row : List Cell) (c0 c : Nat),
      (mapRow f r c0 row).getD c oobCell =
        if c < row.length then f r (c0 + c) (row.getD c oobCell) else oobCell := by
  intro row
  induction row with
  | nil => intro c0 c; simp [mapRow]
  | cons cell cs ih =>
    intro c0 c
    cases c with
    | zero => simp [mapRow]
    | succ n =>
      simp only [mapRow, List.getD_cons_succ, ih (c0 + 1) n, List.length_cons]
      have harith : c0 + 1 + n = c0 + (n + 1) := by omega
      by_cases h : n < cs.length
      · simp [h, Nat.succ_lt_succ h, harith]
      · simp [h, fun hh => h (Nat.lt_of_succ_lt_succ hh)]

theorem getCell_mapCells (f : Nat → Nat → Cell → Cell) (b : Board) (p : Pos) :
    getCell (mapCells f b) p =
      if InBounds b p then f p.1 p.2 (getCell b p) else oobCell := by
  unfold getCell mapCells InBounds
  rw [mapRows_getD, mapRow_getD]
  simp

theorem mapCells_length (f : Nat → Nat → Cell → Cell) (b : Board) :
    (mapCells f b).length = b.length := mapRows_length f 0 b

theorem mapCells_rowLen (f : Nat → Nat → Cell → Cell) (b : Board) (r : Nat) :
    ((mapCells f b).getD r []).length = (b.getD r []).length := by
  unfold mapCells
  rw [mapRows_getD, mapRow_length]

/-- Two boards with the same shape have the same neighbor lists. -/
theorem neighbors_congr {b b' : Board} (hlen : b'.length = b.length)
    (hrow : (b'.getD 0 []).length = (b.getD 0 []).length) (row col : Nat) :
    neighbors b' row col = neighbors b row col := by
  unfold neighbors
  rw [hlen, hrow]

theorem neighbors_mapCells (f : Nat → Nat → Cell → Cell) (b : Board)
    (row col : Nat) : neighbors (mapCells f b) row col = neighbors b row col :=
  neighbors_congr (mapCells_length f b) (mapCells_rowLen f b 0) row col

theorem inBounds_mapCells (f : Nat → Nat → Cell → Cell) (b : Board) (p : Pos) :
    InBounds (mapCells f b) p ↔ InBounds b p := by
  unfold InBounds
  rw [mapCells_rowLen]

/-- Every position produced by `neighbors` is in bounds of a rectangular
board. -/
theorem neighbors_inBounds {b : Board} {rows cols : Nat} (hb : Rect b rows cols)
    (row col : Nat) {p : Pos} (hp : p ∈ neighbors b row col) : InBounds b p := by
  obtain ⟨hlen, hrows⟩ := hb
  unfold neighbors at hp
  simp only [List.mem_filterMap] at hp
  obtain ⟨d, _, hd⟩ := hp
  split at hd
  · rename_i hcond
    cases hd
    unfold InBounds
    have h1 : ((row : Int) + d.1).toNat < b.length := by
      omega
    have hmem : b.getD (((row : Int) + d.1).toNat) [] ∈ b := by
      rw [List.getD_eq_getElem _ _ h1]
      exact List.getElem_mem h1
    have : (b.getD (((row : Int) + d.1).toNat) []).length = cols := hrows _ hmem
    simp only [this]
    have hc : (b.getD 0 []).length = cols := by
      rcases b with _ | ⟨r0, rest⟩
      · simp at h1
      · exact hrows r0 (by simp) ▸ rfl
    omega
  · cases hd

/-! ## Counting lemmas -/

/-- Number of cells of the board satisfying `P`. -/
def countCells (P : Cell → Bool) (b : Board) : Nat :=
  (b.map fun row => row.countP P).sum

theorem unrevealedCount_eq (b : Board) :
    unrevealedCount b = countCells (fun c => !c.isRevealed) b := rfl

theorem revealedCount_eq (b : Board) :
    revealedCount b = countCells (fun c => c.isRevealed) b := rfl

theorem mapRow_eq_self {f : Nat → Nat → Cell → Cell} {r : Nat}
    (h : ∀ c cell, f r c cell = cell) :
    ∀ (c0 : Nat) (row : List Cell), mapRow f r c0 row = row := by
  intro c0 row
  induction row generalizing c0 with
  | nil => rfl
  | cons cell cs ih => simp [mapRow, h, ih]

theorem mapRows_eq_self {f : Nat → Nat → Cell → Cell} :
    ∀ (b : Board) (r0 : Nat), (∀ r c cell, r0 ≤ r → f r c cell = cell) →
      mapRows f r0 b = b := by
  intro b
  induction b with
  | nil => intro r0 _; rfl
  | cons row rest ih =>
    intro r0 h
    simp only [mapRows]
    rw [mapRow_eq_self (fun c cell => h r0 c cell (Nat.le_refl r0)) 0 row,
      ih (r0 + 1) (fun r c cell hr => h r c cell (by omega))]

theorem countP_mapRow_of_preserve {P : Cell → Bool} {f : Nat → Nat → Cell → Cell}
    (h : ∀ r c cell, P (f r c cell) = P cell) (r : Nat) :
    ∀ (c0 : Nat) (row : List Cell),
      (mapRow f r c0 row).countP P = row.countP P := by
  intro c0 row
  induction row generalizing c0 with
  | nil => rfl
  | cons cell cs ih => simp [mapRow, List.countP_cons, h, ih]

theorem countCells_mapCells_of_preserve {P : Cell → Bool}
    {f : Nat → Nat → Cell → Cell} (h : ∀ r c cell, P (f r c cell) = P cell)
    (b : Board) : countCells P (mapCells f b) = countCells P b := by
  unfold countCells mapCells
  suffices hs : ∀ (b : Board) (r0 : Nat),
      ((mapRows f r0 b).map fun row => row.countP P).sum =
        (b.map fun row => row.countP P).sum by
    exact hs b 0
  intro b
  induction b with
  | nil => intro r0; rfl
  | cons row rest ih =>
    intro r0
    simp [mapRows, countP_mapRow_of_preserve h, ih]

/-- On the row it targets, a point update is a `List.set`. -/
theorem mapRow_pointUpd_eq_set (g : Cell → Cell) (p : Pos) (row : List Cell) :
    mapRow (pointUpd g p) p.1 0 row =
      row.set p.2 (g (row.getD p.2 oobCell)) := by
  apply List.ext_getElem
  · simp [mapRow_length]
  · intro c h1 h2
    have hc : c < row.length := by simpa [mapRow_length] using h1
    have hmr := mapRow_getD (pointUpd g p) p.1 row 0 c
    rw [List.getD_eq_getElem _ _ h1] at hmr
    rw [hmr, if_pos hc, List.getElem_set]
    by_cases hcp : p.2 = c
    · subst hcp
      simp [pointUpd]
    · rw [if_neg hcp]
      simp only [pointUpd]
      rw [if_neg (by rintro ⟨-, h2⟩; exact hcp (by omega)),
        List.getD_eq_getElem _ _ hc]

/-- A point update at an in-bounds position is a `List.set` of a
`List.set`. -/
theorem mapCells_pointUpd_eq_set (g : Cell → Cell) (p : Pos) (b : Board)
    (h : InBounds b p) :
    mapCells (pointUpd g p) b =
      b.set p.1 ((b.getD p.1 []).set p.2 (g (getCell b p))) := by
  have hrow : p.1 < b.length := by
    unfold InBounds at h
    by_contra hc
    rw [List.getD_eq_default _ _ (Nat.le_of_not_lt hc)] at h
    simp at h
  apply List.ext_getElem
  · simp [mapCells_length]
  · intro r h1 h2
    have hr : r < b.length := by simpa [mapCells_length] using h1
    have hrows := mapRows_getD (pointUpd g p) b 0 r
    rw [show (mapCells (pointUpd g p) b)[r] =
        (mapRows (pointUpd g p) 0 b).getD r [] from
      (List.getD_eq_getElem _ _ h1).symm]
    rw [hrows, List.getElem_set]
    by_cases hrp : p.1 = r
    · subst hrp
      rw [if_pos rfl, Nat.zero_add, mapRow_pointUpd_eq_set]
      rfl
    · rw [if_neg hrp, show (0 + r) = r from by omega,
        mapRow_eq_self (fun c cell => if_neg (fun hh => hrp hh.1.symm)) 0 _]
      exact List.getD_eq_getElem b [] hr

/-- Additive form of `List.countP_set`. -/
theorem countP_set_add (P : Cell → Bool) (l : List Cell) (i : Nat)
    (hi : i < l.length) (a : Cell) :
    (l.set i a).countP P + (if P l[i] then 1 else 0) =
      l.countP P + (if P a then 1 else 0) := by
  rw [List.countP_set P l i a hi]
  have hle : (if P l[i] then 1 else 0) ≤ l.countP P := by
    by_cases h : P l[i]
    · simpa [h] using List.countP_pos_iff.mpr ⟨l[i], List.getElem_mem hi, h⟩
    · simp [h]
  omega

/-- Additive form of a sum over a `List.set`. -/
theorem sum_map_set_add (f : List Cell → Nat) (b : Board) (r : Nat)
    (hr : r < b.length) (row : List Cell) :
    ((b.set r row).map f).sum + f b[r] = (b.map f).sum + f row := by
  rw [List.set_eq_take_cons_drop _ hr]
  conv_rhs =>
    rw [show b = b.take r ++ b.drop r from (List.take_append_drop r b).symm,
      List.drop_eq_getElem_cons hr]
  simp only [List.map_append, List.sum_append, List.map_cons, List.sum_cons]
  omega

/-- The master counting lemma for point updates. -/
theorem countCells_pointUpd (P : Cell → Bool) (g : Cell → Cell) (p : Pos)
    (b : Board) (h : InBounds b p) :
    countCells P (mapCells (pointUpd g p) b) + (if P (getCell b p) then 1 else 0) =
      countCells P b + (if P (g (getCell b p)) then 1 else 0) := by
  have hrow : p.1 < b.length := by
    unfold InBounds at h
    by_contra hc
    rw [List.getD_eq_default _ _ (Nat.le_of_not_lt hc)] at h
    simp at h
  have hcol : p.2 < (b.getD p.1 []).length := h
  have hgd : b.getD p.1 [] = b[p.1] := List.getD_eq_getElem _ _ hrow
  have hcol' : p.2 < b[p.1].length := hgd ▸ hcol
  have hcell : getCell b p = b[p.1][p.2] := by
    show (b.getD p.1 []).getD p.2 oobCell = b[p.1][p.2]
    rw [hgd, List.getD_eq_getElem _ _ hcol']
  rw [mapCells_pointUpd_eq_set g p b h, hgd]
  unfold countCells
  have hs := sum_map_set_add (fun row => row.countP P) b p.1 hrow
    (b[p.1].set p.2 (g (getCell b p)))
  have hc := countP_set_add P b[p.1] p.2 hcol' (g (getCell b p))
  rw [← hcell] at hc
  omega

/-! ## Shape and `reveal1` lemmas -/

/-- `b'` has the same shape (row count and row lengths) as `b`. -/
def SameShape (b b' : Board) : Prop :=
  b'.length = b.length ∧ ∀ r, (b'.getD r []).length = (b.getD r []).length

theorem SameShape.refl (b : Board) : SameShape b b := ⟨rfl, fun _ => rfl⟩

theorem SameShape.trans {a b c : Board} (h1 : SameShape a b)
    (h2 : SameShape b c) : SameShape a c :=
  ⟨h2.1.trans h1.1, fun r => (h2.2 r).trans (h1.2 r)⟩

theorem sameShape_mapCells (f : Nat → Nat → Cell → Cell) (b : Board) :
    SameShape b (mapCells f b) :=
  ⟨mapCells_length f b, mapCells_rowLen f b⟩

theorem SameShape.neighbors_eq {b b' : Board} (h : SameShape b b')
    (row col : Nat) : neighbors b' row col = neighbors b row col :=
  neighbors_congr h.1 (h.2 0) row col

theorem SameShape.inBounds_iff {b b' : Board} (h : SameShape b b') (p : Pos) :
    InBounds b' p ↔ InBounds b p := by
  unfold InBounds
  rw [h.2 p.1]

theorem getCell_reveal1 (b : Board) (p q : Pos) :
    getCell (reveal1 b p) q =
      if q = p then { getCell b p with isRevealed := true } else getCell b q := by
  unfold reveal1
  rw [getCell_mapCells]
  by_cases hin : InBounds b q
  · rw [if_pos hin]
    unfold pointUpd
    by_cases hqp : q = p
    · subst hqp
      simp
    · rw [if_neg (fun hh => hqp (Prod.ext hh.1 hh.2)), if_neg hqp]
  · rw [if_neg hin, getCell_of_not_inBounds hin]
    by_cases hqp : q = p
    · subst hqp
      rw [if_pos rfl, getCell_of_not_inBounds hin]
      rfl
    · rw [if_neg hqp]

theorem reveal1_isMine (b : Board) (p q : Pos) :
    (getCell (reveal1 b p) q).isMine = (getCell b q).isMine := by
  rw [getCell_reveal1]
  split
  · rename_i h
    subst h
    rfl
  · rfl

theorem reveal1_isFlagged (b : Board) (p q : Pos) :
    (getCell (reveal1 b p) q).isFlagged = (getCell b q).isFlagged := by
  rw [getCell_reveal1]
  split
  · rename_i h
    subst h
    rfl
  · rfl

theorem reveal1_adjacentMines (b : Board) (p q : Pos) :
    (getCell (reveal1 b p) q).adjacentMines = (getCell b q).adjacentMines := by
  rw [getCell_reveal1]
  split
  · rename_i h
    subst h
    rfl
  · rfl

theorem reveal1_revealed (b : Board) (p q : Pos) :
    (getCell (reveal1 b p) q).isRevealed = true ↔
      (getCell b q).isRevealed = true ∨ q = p := by
  rw [getCell_reveal1]
  by_cases hqp : q = p
  · subst hqp
    simp
  · simp [hqp]

theorem sameShape_reveal1 (b : Board) (p : Pos) : SameShape b (reveal1 b p) :=
  sameShape_mapCells _ b

theorem unrevealedCount_reveal1 {b : Board} {p : Pos}
    (hu : (getCell b p).isRevealed = false) :
    unrevealedCount (reveal1 b p) + 1 = unrevealedCount b := by
  have h := countCells_pointUpd (fun c => !c.isRevealed)
    (fun cell => { cell with isRevealed := true }) p b (inBounds_of_not_revealed hu)
  rw [unrevealedCount_eq, unrevealedCount_eq]
  unfold reveal1
  simp only [hu] at h
  simpa using h

/-! ## `revealNbrs` lemmas -/

theorem sameShape_revealNbrs : ∀ (ns : List Pos) (b : Board),
    SameShape b (revealNbrs b ns).1 := by
  intro ns
  induction ns with
  | nil => intro b; exact SameShape.refl b
  | cons n ns ih =>
    intro b
    simp only [revealNbrs]
    split
    · exact (sameShape_reveal1 b n).trans (ih (reveal1 b n))
    · exact ih b

theorem revealNbrs_isMine : ∀ (ns : List Pos) (b : Board) (q : Pos),
    (getCell (revealNbrs b ns).1 q).isMine = (getCell b q).isMine := by
  intro ns
  induction ns with
  | nil => intro b q; rfl
  | cons n ns ih =>
    intro b q
    simp only [revealNbrs]
    split
    · rw [ih (reveal1 b n) q, reveal1_isMine]
    · exact ih b q

theorem revealNbrs_isFlagged : ∀ (ns : List Pos) (b : Board) (q : Pos),
    (getCell (revealNbrs b ns).1 q).isFlagged = (getCell b q).isFlagged := by
  intro ns
  induction ns with
  | nil => intro b q; rfl
  | cons n ns ih =>
    intro b q
    simp only [revealNbrs]
    split
    · rw [ih (reveal1 b n) q, reveal1_isFlagged]
    · exact ih b q

theorem revealNbrs_adjacentMines : ∀ (ns : List Pos) (b : Board) (q : Pos),
    (getCell (revealNbrs b ns).1 q).adjacentMines = (getCell b q).adjacentMines := by
  intro ns
  induction ns with
  | nil => intro b q; rfl
  | cons n ns ih =>
    intro b q
    simp only [revealNbrs]
    split
    · rw [ih (reveal1 b n) q, reveal1_adjacentMines]
    · exact ih b q

theorem revealNbrs_revealed : ∀ (ns : List Pos) (b : Board) (q : Pos),
    (getCell (revealNbrs b ns).1 q).isRevealed = true ↔
      (getCell b q).isRevealed = true ∨ q ∈ (revealNbrs b ns).2 := by
  intro ns
  induction ns with
  | nil => intro b q; simp [revealNbrs]
  | cons n ns ih =>
    intro b q
    simp only [revealNbrs]
    split
    · rw [ih (reveal1 b n) q]
      rw [reveal1_revealed]
      simp only [List.mem_cons]
      tauto
    · exact ih b q

theorem revealNbrs_mem : ∀ (ns : List Pos) (b : Board),
    ∀ n ∈ (revealNbrs b ns).2, n ∈ ns ∧
      (getCell b n).isRevealed = false ∧ (getCell b n).isFlagged = false := by
  intro ns
  induction ns with
  | nil => intro b n hn; simp [revealNbrs] at hn
  | cons m ns ih =>
    intro b n hn
    simp only [revealNbrs] at hn
    split at hn
    · rename_i h
      simp only [List.mem_cons] at hn
      rcases hn with rfl | hn
      · exact ⟨List.mem_cons_self _ _, by simpa using h.1, by simpa using h.2⟩
      · obtain ⟨h1, h2, h3⟩ := ih (reveal1 b m) n hn
        refine ⟨List.mem_cons_of_mem _ h1, ?_, by rwa [reveal1_isFlagged] at h3⟩
        rw [getCell_reveal1] at h2
        split at h2
        · simp at h2
        · exact h2
    · obtain ⟨h1, h2, h3⟩ := ih b n hn
      exact ⟨List.mem_cons_of_mem _ h1, h2, h3⟩

theorem revealNbrs_complete : ∀ (ns : List Pos) (b : Board),
    ∀ n ∈ ns, (getCell (revealNbrs b ns).1 n).isRevealed = false →
      (getCell b n).isFlagged = true := by
  intro ns
  induction ns with
  | nil => intro b n hn; simp at hn
  | cons m ns ih =>
    intro b n hn hunrev
    simp only [List.mem_cons] at hn
    by_cases hcond : ¬ (getCell b m).isRevealed = true ∧ ¬ (getCell b m).isFlagged = true
    · have hstep : (revealNbrs b (m :: ns)).1 = (revealNbrs (reveal1 b m) ns).1 := by
        simp only [revealNbrs, if_pos hcond]
      rw [hstep] at hunrev
      rcases hn with rfl | hn
      · exfalso
        rw [(revealNbrs_revealed ns (reveal1 b n) n).mpr
          (Or.inl ((reveal1_revealed b n n).mpr (Or.inr rfl)))] at hunrev
        cases hunrev
      · have := ih (reveal1 b m) n hn hunrev
        rwa [reveal1_isFlagged] at this
    · have hstep : (revealNbrs b (m :: ns)).1 = (revealNbrs b ns).1 := by
        simp only [revealNbrs, if_neg hcond]
      rw [hstep] at hunrev
      rcases hn with rfl | hn
      · push_neg at hcond
        by_cases hrev : (getCell b n).isRevealed = true
        · exfalso
          have : (getCell (revealNbrs b ns).1 n).isRevealed = true :=
            (revealNbrs_revealed ns b n).mpr (Or.inl hrev)
          rw [this] at hunrev
          cases hunrev
        · exact hcond (by simpa using hrev)
      · exact ih b n hn hunrev

theorem unrevealedCount_revealNbrs : ∀ (ns : List Pos) (b : Board),
    unrevealedCount (revealNbrs b ns).1 + (revealNbrs b ns).2.length =
      unrevealedCount b := by
  intro ns
  induction ns with
  | nil => intro b; simp [revealNbrs]
  | cons n ns ih =>
    intro b
    simp only [revealNbrs]
    split
    · rename_i h
      have h1 : (getCell b n).isRevealed = false := by simpa using h.1
      have := unrevealedCount_reveal1 h1
      have h2 := ih (reveal1 b n)
      simp only [List.length_cons]
      omega
    · exact ih b

/-! ## `bfsFuel` and `revealCell` frame lemmas -/

theorem sameShape_bfsFuel : ∀ (fuel : Nat) (b : Board) (q : List Pos),
    SameShape b (bfsFuel fuel b q) := by
  intro fuel
  induction fuel with
  | zero => intro b q; exact SameShape.refl b
  | succ fuel ih =>
    intro b q
    match q with
    | [] => exact SameShape.refl b
    | p :: rest =>
      simp only [bfsFuel]
      split
      · exact (sameShape_revealNbrs _ b).trans (ih _ _)
      · exact ih b rest

theorem bfsFuel_isMine : ∀ (fuel : Nat) (b : Board) (q : List Pos) (x : Pos),
    (getCell (bfsFuel fuel b q) x).isMine = (getCell b x).isMine := by
  intro fuel
  induction fuel with
  | zero => intro b q x; rfl
  | succ fuel ih =>
    intro b q x
    match q with
    | [] => rfl
    | p :: rest =>
      simp only [bfsFuel]
      split
      · rw [ih _ _ x, revealNbrs_isMine]
      · exact ih b rest x

theorem bfsFuel_isFlagged : ∀ (fuel : Nat) (b : Board) (q : List Pos) (x : Pos),
    (getCell (bfsFuel fuel b q) x).isFlagged = (getCell b x).isFlagged := by
  intro fuel
  induction fuel with
  | zero => intro b q x; rfl
  | succ fuel ih =>
    intro b q x
    match q with
    | [] => rfl
    | p :: rest =>
      simp only [bfsFuel]
      split
      · rw [ih _ _ x, revealNbrs_isFlagged]
      · exact ih b rest x

theorem bfsFuel_adjacentMines : ∀ (fuel : Nat) (b : Board) (q : List Pos) (x : Pos),
    (getCell (bfsFuel fuel b q) x).adjacentMines = (getCell b x).adjacentMines := by
  intro fuel
  induction fuel with
  | zero => intro b q x; rfl
  | succ fuel ih =>
    intro b q x
    match q with
    | [] => rfl
    | p :: rest =>
      simp only [bfsFuel]
      split
      · rw [ih _ _ x, revealNbrs_adjacentMines]
      · exact ih b rest x

theorem bfsFuel_revealed_mono : ∀ (fuel : Nat) (b : Board) (q : List Pos) (x : Pos),
    (getCell b x).isRevealed = true →
      (getCell (bfsFuel fuel b q) x).isRevealed = true := by
  intro fuel
  induction fuel with
  | zero => intro b q x h; exact h
  | succ fuel ih =>
    intro b q x h
    match q with
    | [] => exact h
    | p :: rest =>
      simp only [bfsFuel]
      split
      · exact ih _ _ x ((revealNbrs_revealed _ b x).mpr (Or.inl h))
      · exact ih b rest x h

theorem sameShape_revealCell (b : Board) (row col : Nat) :
    SameShape b (revealCell b row col) := by
  unfold revealCell
  split
  · exact SameShape.refl b
  · exact (sameShape_reveal1 b (row, col)).trans (sameShape_bfsFuel _ _ _)

theorem revealCell_isMine (b : Board) (row col : Nat) (x : Pos) :
    (getCell (revealCell b row col) x).isMine = (getCell b x).isMine := by
  unfold revealCell
  split
  · rfl
  · rw [bfsFuel_isMine, reveal1_isMine]

theorem revealCell_isFlagged (b : Board) (row col : Nat) (x : Pos) :
    (getCell (revealCell b row col) x).isFlagged = (getCell b x).isFlagged := by
  unfold revealCell
  split
  · rfl
  · rw [bfsFuel_isFlagged, reveal1_isFlagged]

theorem revealCell_adjacentMines (b : Board) (row col : Nat) (x : Pos) :
    (getCell (revealCell b row col) x).adjacentMines =
      (getCell b x).adjacentMines := by
  unfold revealCell
  split
  · rfl
  · rw [bfsFuel_adjacentMines, reveal1_adjacentMines]

theorem revealCell_revealed_mono (b : Board) (row col : Nat) (x : Pos)
    (h : (getCell b x).isRevealed = true) :
    (getCell (revealCell b row col) x).isRevealed = true := by
  unfold revealCell
  split
  · exact h
  · exact bfsFuel_revealed_mono _ _ _ x ((reveal1_revealed _ _ _).mpr (Or.inl h))

/-- `revealCell` does reveal its target whenever the target is neither
revealed nor flagged. -/
theorem revealCell_reveals_target {b : Board} {row col : Nat}
    (hr : (getCell b (row, col)).isRevealed = false)
    (hf : (getCell b (row, col)).isFlagged = false) :
    (getCell (revealCell b row col) (row, col)).isRevealed = true := by
  unfold revealCell
  rw [if_neg (by simp [hr, hf])]
  exact bfsFuel_revealed_mono _ _ _ _ ((reveal1_revealed _ _ _).mpr (Or.inr rfl))

/-! ## Characterisation of the flood fill

`Reach P s x` says that the flood fill started at `s` on board `P` reaches
`x`: either `x = s`, or `x` is an in-bounds neighbor of a reached,
zero-adjacency, non-mine cell, and `x` itself was unrevealed and unflagged
in `P`.  The reached set is the connected region of zero cells reachable
from `s` through unrevealed, unflagged cells, together with its unrevealed,
unflagged border. -/

inductive Reach (P : Board) (s : Pos) : Pos → Prop where
  | start : Reach P s s
  | step {q p : Pos} : Reach P s q →
      (getCell P q).adjacentMines = 0 → (getCell P q).isMine = false →
      p ∈ neighbors P q.1 q.2 →
      (getCell P p).isRevealed = false → (getCell P p).isFlagged = false →
      Reach P s p

theorem Reach.not_revealed {P : Board} {s x : Pos}
    (hs : (getCell P s).isRevealed = false) (h : Reach P s x) :
    (getCell P x).isRevealed = false := by
  cases h with
  | start => exact hs
  | step _ _ _ _ hnrev _ => exact hnrev

/-- The loop invariant of the flood-fill queue. -/
structure BfsInv (P : Board) (s : Pos) (b : Board) (q : List Pos) : Prop where
  shape : SameShape P b
  fields : ∀ x, (getCell b x).isMine = (getCell P x).isMine ∧
    (getCell b x).isFlagged = (getCell P x).isFlagged ∧
    (getCell b x).adjacentMines = (getCell P x).adjacentMines
  mono : ∀ x, (getCell P x).isRevealed = true → (getCell b x).isRevealed = true
  sound : ∀ x, (getCell b x).isRevealed = true →
    (getCell P x).isRevealed = true ∨ Reach P s x
  queue : ∀ x ∈ q, (getCell b x).isRevealed = true ∧ Reach P s x
  frontier : ∀ x, (getCell b x).isRevealed = true → Reach P s x →
    (getCell P x).adjacentMines = 0 → (getCell P x).isMine = false →
    ∀ n ∈ neighbors P x.1 x.2, (getCell P n).isRevealed = false →
      (getCell P n).isFlagged = false →
      (getCell b n).isRevealed = true ∨ x ∈ q
  startRev : (getCell b s).isRevealed = true

/-- With an empty queue the invariant forces the revealed set to be exactly
the original one plus the reached set. -/
theorem BfsInv.empty_queue {P : Board} {s : Pos} {b : Board}
    (h : BfsInv P s b []) :
    ∀ x, (getCell b x).isRevealed = true ↔
      ((getCell P x).isRevealed = true ∨ Reach P s x) := by
  intro x
  constructor
  · exact h.sound x
  · rintro (hr | hreach)
    · exact h.mono x hr
    · induction hreach with
      | start => exact h.startRev
      | step hq hzero hnm hnbr hnrev hnflag ih =>
        rcases h.frontier _ ih hq hzero hnm _ hnbr hnrev hnflag with hr | hmem
        · exact hr
        · cases hmem

theorem bfs_characterization (P : Board) (s : Pos) :
    ∀ (fuel : Nat) (b : Board) (q : List Pos),
      BfsInv P s b q → 9 * unrevealedCount b + q.length ≤ fuel →
      ∀ x, (getCell (bfsFuel fuel b q) x).isRevealed = true ↔
        ((getCell P x).isRevealed = true ∨ Reach P s x) := by
  intro fuel
  induction fuel with
  | zero =>
    intro b q hinv hfuel x
    have hq : q = [] := List.length_eq_zero.mp (by omega)
    subst hq
    exact hinv.empty_queue x
  | succ fuel ih =>
    intro b q hinv hfuel x
    match q with
    | [] => exact hinv.empty_queue x
    | p :: rest =>
      have hple := hinv.queue p (List.mem_cons_self p rest)
      have hnbrs_eq : neighbors b p.1 p.2 = neighbors P p.1 p.2 :=
        hinv.shape.neighbors_eq p.1 p.2
      simp only [bfsFuel]
      split
      · rename_i hcond
        -- the popped cell propagates
        have hzeroP : (getCell P p).adjacentMines = 0 :=
          (hinv.fields p).2.2 ▸ hcond.1
        have hnmP : (getCell P p).isMine = false := by
          have := (hinv.fields p).1
          have h2 := hcond.2
          simp only [Bool.not_eq_true] at h2
          rw [← this]
          exact h2
        set res := revealNbrs b (neighbors b p.1 p.2) with hres
        -- facts about the newly revealed positions
        have hmemres : ∀ n ∈ res.2, n ∈ neighbors P p.1 p.2 ∧
            (getCell P n).isRevealed = false ∧ (getCell P n).isFlagged = false := by
          intro n hn
          obtain ⟨h1, h2, h3⟩ := revealNbrs_mem _ b n hn
          refine ⟨hnbrs_eq ▸ h1, ?_, (hinv.fields n).2.1 ▸ h3⟩
          by_contra hc
          have : (getCell P n).isRevealed = true := by
            cases hPn : (getCell P n).isRevealed
            · exact absurd hPn hc
            · rfl
          rw [hinv.mono n this] at h2
          cases h2
        have hreachres : ∀ n ∈ res.2, Reach P s n := by
          intro n hn
          obtain ⟨h1, h2, h3⟩ := hmemres n hn
          exact Reach.step hple.2 hzeroP hnmP h1 h2 h3
        have hinv' : BfsInv P s res.1 (rest ++ res.2) := by
          refine ⟨?_, ?_, ?_, ?_, ?_, ?_, ?_⟩
          · exact hinv.shape.trans (sameShape_revealNbrs _ b)
          · intro y
            rw [revealNbrs_isMine, revealNbrs_isFlagged, revealNbrs_adjacentMines]
            exact hinv.fields y
          · intro y hy
            exact (revealNbrs_revealed _ b y).mpr (Or.inl (hinv.mono y hy))
          · intro y hy
            rcases (revealNbrs_revealed _ b y).mp hy with hb | hnew
            · exact hinv.sound y hb
            · exact Or.inr (hreachres y hnew)
          · intro y hy
            rcases List.mem_append.mp hy with hyr | hyn
            · obtain ⟨h1, h2⟩ := hinv.queue y (List.mem_cons_of_mem _ hyr)
              exact ⟨(revealNbrs_revealed _ b y).mpr (Or.inl h1), h2⟩
            · exact ⟨(revealNbrs_revealed _ b y).mpr (Or.inr hyn),
                hreachres y hyn⟩
          · intro y hyrev hyreach hyzero hynm n hn hnrev hnflag
            rcases (revealNbrs_revealed _ b y).mp hyrev with hyb | hynew
            · rcases hinv.frontier y hyb hyreach hyzero hynm n hn hnrev hnflag
                with hnb | hymem
              · exact Or.inl ((revealNbrs_revealed _ b n).mpr (Or.inl hnb))
              · rcases List.mem_cons.mp hymem with rfl | hyrest
                · -- the popped cell: all its eligible neighbors got revealed
                  left
                  cases hres1 : (getCell res.1 n).isRevealed
                  · exfalso
                    have hfl := revealNbrs_complete _ b n (hnbrs_eq ▸ hn) hres1
                    rw [(hinv.fields n).2.1, hnflag] at hfl
                    cases hfl
                  · rfl
                · exact Or.inr (List.mem_append_left _ hyrest)
            · exact Or.inr (List.mem_append_right _ hynew)
          · exact (revealNbrs_revealed _ b s).mpr (Or.inl hinv.startRev)
        have hcount := unrevealedCount_revealNbrs (neighbors b p.1 p.2) b
        rw [← hres] at hcount
        have hlen : (rest ++ res.2).length = rest.length + res.2.length :=
          List.length_append _ _
        refine ih res.1 (rest ++ res.2) hinv' ?_ x
        simp only [List.length_cons] at hfuel
        omega
      · rename_i hcond
        -- the popped cell does not propagate
        have hinv' : BfsInv P s b rest := by
          refine ⟨hinv.shape, hinv.fields, hinv.mono, hinv.sound, ?_, ?_,
            hinv.startRev⟩
          · intro y hy
            exact hinv.queue y (List.mem_cons_of_mem _ hy)
          · intro y hyrev hyreach hyzero hynm n hn hnrev hnflag
            rcases hinv.frontier y hyrev hyreach hyzero hynm n hn hnrev hnflag
              with hnb | hymem
            · exact Or.inl hnb
            · rcases List.mem_cons.mp hymem with rfl | hyrest
              · exfalso
                apply hcond
                constructor
                · exact (hinv.fields y).2.2 ▸ hyzero
                · have := (hinv.fields y).1
                  simp only [Bool.not_eq_true]
                  rw [this]
                  exact hynm
              · exact Or.inr hyrest
        refine ih b rest hinv' ?_ x
        simp only [List.length_cons] at hfuel
        omega

/-- The full behavioural characterisation of `revealCell` on an unrevealed,
unflagged target: a position becomes revealed exactly when it was revealed
before or the flood fill reaches it. -/
theorem revealCell_characterization {b : Board} {s : Pos}
    (hrev : (getCell b s).isRevealed = false)
    (hflag : (getCell b s).isFlagged = false) :
    ∀ x, (getCell (revealCell b s.1 s.2) x).isRevealed = true ↔
      ((getCell b x).isRevealed = true ∨ Reach b s x) := by
  intro x
  unfold revealCell
  rw [if_neg (by simp [show ((s.1, s.2) : Pos) = s from rfl, hrev, hflag])]
  have hinv : BfsInv b s (reveal1 b s) [s] := by
    refine ⟨sameShape_reveal1 b s, ?_, ?_, ?_, ?_, ?_, ?_⟩
    · intro y
      exact ⟨reveal1_isMine b s y, reveal1_isFlagged b s y,
        reveal1_adjacentMines b s y⟩
    · intro y hy
      exact (reveal1_revealed b s y).mpr (Or.inl hy)
    · intro y hy
      rcases (reveal1_revealed b s y).mp hy with hb | rfl
      · exact Or.inl hb
      · exact Or.inr Reach.start
    · intro y hy
      rcases List.mem_singleton.mp hy with rfl
      exact ⟨(reveal1_revealed b y y).mpr (Or.inr rfl), Reach.start⟩
    · intro y hyrev hyreach hyzero hynm n hn hnrev hnflag
      rcases (reveal1_revealed b s y).mp hyrev with hb | rfl
      · exfalso
        rw [Reach.not_revealed hrev hyreach] at hb
        cases hb
      · exact Or.inr (List.mem_singleton.mpr rfl)
    · exact (reveal1_revealed b s s).mpr (Or.inr rfl)
  have hcount := unrevealedCount_reveal1 hrev
  have hres := bfs_characterization b s (9 * unrevealedCount b + 1)
    (reveal1 b s) [s] hinv (by simp only [List.length_singleton]; omega) x
  exact hres

theorem Cell.ext_fields {c d : Cell} (h1 : c.isMine = d.isMine)
    (h2 : c.isRevealed = d.isRevealed) (h3 : c.isFlagged = d.isFlagged)
    (h4 : c.adjacentMines = d.adjacentMines) : c = d := by
  cases c
  cases d
  simp_all

theorem bool_eq_of_iff {a b : Bool} (h : a = true ↔ b = true) : a = b := by
  cases a <;> cases b <;> simp_all

/-- A flagged cell is never touched by `revealCell`. -/
theorem revealCell_flagged_untouched {b : Board} {s : Pos}
    (hrev : (getCell b s).isRevealed = false)
    (hflag : (getCell b s).isFlagged = false)
    {x : Pos} (hx : (getCell b x).isFlagged = true) :
    getCell (revealCell b s.1 s.2) x = getCell b x := by
  have hnr : ¬ Reach b s x := by
    intro h
    cases h with
    | start => rw [hflag] at hx; cases hx
    | step _ _ _ _ _ hnf => rw [hnf] at hx; cases hx
  apply Cell.ext_fields (revealCell_isMine b s.1 s.2 x) ?_
    (revealCell_isFlagged b s.1 s.2 x) (revealCell_adjacentMines b s.1 s.2 x)
  apply bool_eq_of_iff
  rw [revealCell_characterization hrev hflag x]
  exact ⟨fun h => h.resolve_right hnr, Or.inl⟩

/-- A cell the flood fill does not reach is entirely unchanged. -/
theorem revealCell_outside_unchanged {b : Board} {s : Pos}
    (hrev : (getCell b s).isRevealed = false)
    (hflag : (getCell b s).isFlagged = false)
    {x : Pos} (hnr : ¬ Reach b s x) :
    getCell (revealCell b s.1 s.2) x = getCell b x := by
  apply Cell.ext_fields (revealCell_isMine b s.1 s.2 x) ?_
    (revealCell_isFlagged b s.1 s.2 x) (revealCell_adjacentMines b s.1 s.2 x)
  apply bool_eq_of_iff
  rw [revealCell_characterization hrev hflag x]
  exact ⟨fun h => h.resolve_right hnr, Or.inl⟩

/-! ## Claim C10 -/

/-- Claim C10: for every board and coordinate, `revealCell` changes only
`isRevealed` fields — the returned board has the same dimensions and every
cell keeps its `isMine`, `isFlagged` and `adjacentMines` values. -/
theorem claim10_revealCell_frame (b : Board) (row col : Nat) :
    (revealCell b row col).length = b.length ∧
    (∀ r, ((revealCell b row col).getD r []).length = (b.getD r []).length) ∧
    ∀ p : Pos,
      (getCell (revealCell b row col) p).isMine = (getCell b p).isMine ∧
      (getCell (revealCell b row col) p).isFlagged = (getCell b p).isFlagged ∧
      (getCell (revealCell b row col) p).adjacentMines =
        (getCell b p).adjacentMines := by
  have hs := sameShape_revealCell b row col
  exact ⟨hs.1, hs.2, fun p =>
    ⟨revealCell_isMine b row col p, revealCell_isFlagged b row col p,
      revealCell_adjacentMines b row col p⟩⟩

/-! ## Claim C1 -/

/-- The region named by the claim's own words: the connected
zero-`adjacentMines` (non-mine) region containing the start, with flags
playing no role in connectivity, plus its bordering cells. -/
inductive specZeroRegion (b : Board) (s : Pos) : Pos → Prop where
  | start : specZeroRegion b s s
  | step {q p : Pos} : specZeroRegion b s q →
      (getCell b q).adjacentMines = 0 → (getCell b q).isMine = false →
      p ∈ neighbors b q.1 q.2 → specZeroRegion b s p

/-- A 1×3 board of zero-adjacency non-mine cells whose middle cell is
flagged. -/
def cexC1 : Board :=
  [[makeCell, { makeCell with isFlagged := true }, makeCell]]

/-- Claim C1 as stated is false: on `cexC1`, the cell `(0,2)` lies in the
connected zero-`adjacentMines` region of `(0,0)` and is unflagged, yet
`revealCell` does not reveal it — the flagged cell `(0,1)` blocks the
flood fill, so the *entire* region is not revealed. -/
theorem claim1_counterexample :
    ((getCell cexC1 (0, 0)).isRevealed = false ∧
      (getCell cexC1 (0, 0)).isFlagged = false ∧
      (getCell cexC1 (0, 0)).isMine = false ∧
      (getCell cexC1 (0, 0)).adjacentMines = 0) ∧
    specZeroRegion cexC1 (0, 0) (0, 2) ∧
    (getCell cexC1 (0, 2)).isFlagged = false ∧
    (getCell (revealCell cexC1 0 0) (0, 2)).isRevealed = false := by
  refine ⟨by decide, ?_, by decide, by decide⟩
  have h1 : specZeroRegion cexC1 (0, 0) (0, 1) :=
    specZeroRegion.step specZeroRegion.start (by decide) (by decide) (by decide)
  exact specZeroRegion.step h1 (by decide) (by decide) (by decide)

/-- Claim C1, amended: on an unrevealed, unflagged, non-mine,
zero-`adjacentMines` target, `revealCell` reveals exactly the positions
reachable through *unrevealed, unflagged* zero cells (the reachable
sub-region plus its unrevealed, unflagged border, `Reach`); no flagged
cell anywhere changes, and every cell outside the reached set is entirely
unchanged. -/
theorem claim1_revealCell_flood (b : Board) (s : Pos)
    (hrev : (getCell b s).isRevealed = false)
    (hflag : (getCell b s).isFlagged = false)
    (hmine : (getCell b s).isMine = false)
    (hzero : (getCell b s).adjacentMines = 0) :
    (∀ x, (getCell (revealCell b s.1 s.2) x).isRevealed = true ↔
      ((getCell b x).isRevealed = true ∨ Reach b s x)) ∧
    (∀ x, (getCell b x).isFlagged = true →
      getCell (revealCell b s.1 s.2) x = getCell b x) ∧
    (∀ x, ¬ Reach b s x → getCell (revealCell b s.1 s.2) x = getCell b x) := by
  exact ⟨revealCell_characterization hrev hflag,
    fun x hx => revealCell_flagged_untouched hrev hflag hx,
    fun x hx => revealCell_outside_unchanged hrev hflag hx⟩

/-- Witness for the amended claim C1 at the concrete board `cexC1` and
start `(0,0)`. -/
theorem claim1_witness :
    ((getCell cexC1 (0, 0)).isRevealed = false ∧
      (getCell cexC1 (0, 0)).isFlagged = false ∧
      (getCell cexC1 (0, 0)).isMine = false ∧
      (getCell cexC1 (0, 0)).adjacentMines = 0) ∧
    ((∀ x, (getCell (revealCell cexC1 0 0) x).isRevealed = true ↔
      ((getCell cexC1 x).isRevealed = true ∨ Reach cexC1 (0, 0) x)) ∧
    (∀ x, (getCell cexC1 x).isFlagged = true →
      getCell (revealCell cexC1 0 0) x = getCell cexC1 x) ∧
    (∀ x, ¬ Reach cexC1 (0, 0) x →
      getCell (revealCell cexC1 0 0) x = getCell cexC1 x)) :=
  ⟨⟨by decide, by decide, by decide, by decide⟩,
    claim1_revealCell_flood cexC1 (0, 0) (by decide) (by decide) (by decide)
      (by decide)⟩

/-! ## Claim C5: the chord-reveal gate -/

/-- The loop body of `chordReveal`. -/
def chordStep (b : Board) : Board → Pos → Board :=
  fun next n =>
    if ¬ (getCell b n).isFlagged ∧ ¬ (getCell b n).isRevealed then
      revealCell next n.1 n.2
    else next

theorem chordReveal_eq_foldl (b : Board) (row col : Nat) :
    chordReveal b row col =
      if ¬ (getCell b (row, col)).isRevealed ∨
          (getCell b (row, col)).adjacentMines = 0 then b
      else if ((neighbors b row col).filter fun n =>
          (getCell b n).isFlagged).length ≠
          (getCell b (row, col)).adjacentMines then b
      else (neighbors b row col).foldl (chordStep b) b := rfl

theorem chordFold_isFlagged (b : Board) : ∀ (l : List Pos) (acc : Board) (x : Pos),
    (getCell (l.foldl (chordStep b) acc) x).isFlagged = (getCell acc x).isFlagged := by
  intro l
  induction l with
  | nil => intro acc x; rfl
  | cons n ns ih =>
    intro acc x
    simp only [List.foldl_cons]
    rw [ih]
    unfold chordStep
    split
    · rw [revealCell_isFlagged]
    · rfl

theorem chordFold_isMine (b : Board) : ∀ (l : List Pos) (acc : Board) (x : Pos),
    (getCell (l.foldl (chordStep b) acc) x).isMine = (getCell acc x).isMine := by
  intro l
  induction l with
  | nil => intro acc x; rfl
  | cons n ns ih =>
    intro acc x
    simp only [List.foldl_cons]
    rw [ih]
    unfold chordStep
    split
    · rw [revealCell_isMine]
    · rfl

theorem chordFold_adjacentMines (b : Board) :
    ∀ (l : List Pos) (acc : Board) (x : Pos),
      (getCell (l.foldl (chordStep b) acc) x).adjacentMines =
        (getCell acc x).adjacentMines := by
  intro l
  induction l with
  | nil => intro acc x; rfl
  | cons n ns ih =>
    intro acc x
    simp only [List.foldl_cons]
    rw [ih]
    unfold chordStep
    split
    · rw [revealCell_adjacentMines]
    · rfl

theorem chordFold_mono (b : Board) : ∀ (l : List Pos) (acc : Board) (x : Pos),
    (getCell acc x).isRevealed = true →
    (getCell (l.foldl (chordStep b) acc) x).isRevealed = true := by
  intro l
  induction l with
  | nil => intro acc x h; exact h
  | cons n ns ih =>
    intro acc x h
    simp only [List.foldl_cons]
    apply ih
    unfold chordStep
    split
    · exact revealCell_revealed_mono _ _ _ x h
    · exact h

theorem chordFold_reveals (b : Board) : ∀ (l : List Pos) (acc : Board),
    (∀ x, (getCell acc x).isFlagged = (getCell b x).isFlagged) →
    ∀ n ∈ l, (getCell b n).isFlagged = false →
      (getCell b n).isRevealed = false →
      (getCell (l.foldl (chordStep b) acc) n).isRevealed = true := by
  intro l
  induction l with
  | nil => intro acc _ n hn; cases hn
  | cons m ns ih =>
    intro acc hacc n hn hnf hnr
    simp only [List.foldl_cons]
    have haccflag : ∀ x, (getCell (chordStep b acc m) x).isFlagged =
        (getCell b x).isFlagged := by
      intro x
      unfold chordStep
      split
      · rw [revealCell_isFlagged]
        exact hacc x
      · exact hacc x
    rcases List.mem_cons.mp hn with rfl | hmem
    · apply chordFold_mono
      unfold chordStep
      rw [if_pos (by simp [hnf, hnr])]
      cases haccrev : (getCell acc n).isRevealed
      · exact revealCell_reveals_target haccrev ((hacc n).trans hnf)
      · exact revealCell_revealed_mono _ _ _ n haccrev
    · exact ih (chordStep b acc m) haccflag n hmem hnf hnr

/-- Claim C5: `chordReveal` returns the board unchanged unless the target
is revealed with `adjacentMines > 0` and its flagged-neighbor count equals
`adjacentMines` exactly; when the strict-equality gate holds, every
neighbor that is neither flagged nor already revealed ends up revealed. -/
theorem claim5_chordReveal_gate (b : Board) (row col : Nat) :
    (¬ ((getCell b (row, col)).isRevealed = true ∧
        0 < (getCell b (row, col)).adjacentMines ∧
        ((neighbors b row col).filter fun n =>
          (getCell b n).isFlagged).length =
          (getCell b (row, col)).adjacentMines) →
      chordReveal b row col = b) ∧
    (((getCell b (row, col)).isRevealed = true ∧
        0 < (getCell b (row, col)).adjacentMines ∧
        ((neighbors b row col).filter fun n =>
          (getCell b n).isFlagged).length =
          (getCell b (row, col)).adjacentMines) →
      ∀ n ∈ neighbors b row col, (getCell b n).isFlagged = false →
        (getCell b n).isRevealed = false →
        (getCell (chordReveal b row col) n).isRevealed = true) := by
  constructor
  · intro hgate
    rw [chordReveal_eq_foldl]
    by_cases h1 : ¬ (getCell b (row, col)).isRevealed = true ∨
        (getCell b (row, col)).adjacentMines = 0
    · rw [if_pos h1]
    · rw [if_neg h1]
      push_neg at h1
      rw [if_pos]
      intro heq
      exact hgate ⟨h1.1, Nat.pos_of_ne_zero h1.2, heq⟩
  · intro hgate n hn hnf hnr
    rw [chordReveal_eq_foldl, if_neg (by push_neg; exact ⟨hgate.1, by omega⟩),
      if_neg (by simpa using hgate.2.2)]
    exact chordFold_reveals b (neighbors b row col) b (fun _ => rfl) n hn hnf hnr

/-- Concrete chord witness board: the middle cell is revealed with
`adjacentMines = 1`, its left neighbor is flagged (count 1 = 1), its
right neighbor is unflagged and unrevealed. -/
def wbC5 : Board :=
  [[{ makeCell with isFlagged := true, adjacentMines := 1 },
    { makeCell with isRevealed := true, adjacentMines := 1 },
    { makeCell with adjacentMines := 1 }]]

/-- Witness for claim C5 at `wbC5`, chording `(0,1)`: the gate holds and
the unflagged unrevealed neighbor `(0,2)` is revealed. -/
theorem claim5_witness :
    ((getCell wbC5 (0, 1)).isRevealed = true ∧
      0 < (getCell wbC5 (0, 1)).adjacentMines ∧
      ((neighbors wbC5 0 1).filter fun n =>
        (getCell wbC5 n).isFlagged).length =
        (getCell wbC5 (0, 1)).adjacentMines) ∧
    (getCell (chordReveal wbC5 0 1) (0, 2)).isRevealed = true :=
  ⟨⟨by decide, by decide, by decide⟩,
    (claim5_chordReveal_gate wbC5 0 1).2 ⟨by decide, by decide, by decide⟩
      (0, 2) (by decide) (by decide) (by decide)⟩

/-! ## Claim C2: the win condition -/

/-- Number of mine cells on the board. -/
def mineCells (b : Board) : Nat := countCells (fun c => c.isMine) b

/-- Number of flagged cells on the board. -/
def flagCells (b : Board) : Nat := countCells (fun c => c.isFlagged) b

theorem inBounds_row_lt {b : Board} {p : Pos} (h : InBounds b p) :
    p.1 < b.length := by
  unfold InBounds at h
  by_contra hc
  rw [List.getD_eq_default _ _ (Nat.le_of_not_lt hc)] at h
  simp at h

theorem row_mem_of_inBounds {b : Board} {p : Pos} (h : InBounds b p) :
    b.getD p.1 [] ∈ b := by
  rw [List.getD_eq_getElem _ _ (inBounds_row_lt h)]
  exact List.getElem_mem _

theorem cell_mem_of_inBounds {b : Board} {p : Pos} (h : InBounds b p) :
    getCell b p ∈ b.getD p.1 [] := by
  unfold getCell
  rw [List.getD_eq_getElem _ _ h]
  exact List.getElem_mem _

theorem sum_map_add (f g : List Cell → Nat) (L : Board) :
    (L.map fun r => f r + g r).sum = (L.map f).sum + (L.map g).sum := by
  induction L with
  | nil => rfl
  | cons a L ih => simp [ih]; omega

theorem countP_strict {P Q : Cell → Bool} {l : List Cell}
    (hmono : ∀ a ∈ l, P a = true → Q a = true) {x : Cell} (hx : x ∈ l)
    (hQ : Q x = true) (hP : P x = false) : l.countP P < l.countP Q := by
  induction l with
  | nil => cases hx
  | cons a l ih =>
    simp only [List.countP_cons]
    rcases List.mem_cons.mp hx with rfl | hx'
    · have hle := List.countP_mono_left
        (fun y hy => hmono y (List.mem_cons_of_mem _ hy))
      have h1 : (if P x = true then 1 else 0) = 0 := by rw [hP]; rfl
      have h2 : (if Q x = true then 1 else 0) = 1 := by rw [hQ]; rfl
      omega
    · have hlt := ih (fun y hy => hmono y (List.mem_cons_of_mem _ hy)) hx'
      have hind : (if P a = true then 1 else 0) ≤ if Q a = true then 1 else 0 := by
        by_cases hpa : P a = true
        · rw [if_pos hpa, if_pos (hmono a (List.mem_cons_self _ _) hpa)]
        · simp [hpa]
      omega

theorem sum_map_lt {f g : List Cell → Nat} {L : Board}
    (hle : ∀ r ∈ L, f r ≤ g r) {r0 : List Cell} (hr0 : r0 ∈ L)
    (hlt : f r0 < g r0) : (L.map f).sum < (L.map g).sum := by
  induction L with
  | nil => cases hr0
  | cons a L ih =>
    simp only [List.map_cons, List.sum_cons]
    have hsle : (L.map f).sum ≤ (L.map g).sum := by
      apply List.sum_le_sum
      intro r hr
      exact hle r (List.mem_cons_of_mem _ hr)
    rcases List.mem_cons.mp hr0 with rfl | hr0'
    · omega
    · have := ih (fun r hr => hle r (List.mem_cons_of_mem _ hr)) hr0'
      have := hle a (List.mem_cons_self _ _)
      omega

/-- The board on which claim C2 fails: one revealed mine, two hidden
non-mine cells, `totalMines = 2`. -/
def cexC2 : Board :=
  [[{ makeCell with isMine := true, isRevealed := true }, makeCell, makeCell]]

/-- Claim C2 as stated is false: on `cexC2` with `totalMines = 2`, the cell
`(0,1)` is a hidden non-mine cell, yet `checkWin` returns true (the revealed
mine is counted among the revealed cells, and `totalMines` differs from the
real mine count). -/
theorem claim2_counterexample :
    (getCell cexC2 (0, 1)).isMine = false ∧
    (getCell cexC2 (0, 1)).isRevealed = false ∧
    (getCell cexC2 (0, 0)).isMine = true ∧
    (getCell cexC2 (0, 0)).isRevealed = true ∧
    mineCells cexC2 = 1 ∧
    checkWin cexC2 2 = true := by
  decide

/-- Claim C2, amended: `checkWin b m` is true iff
`revealedCount + m = totalCells`; and under the preconditions that `m` is
the true number of mines and that no mine cell is revealed, `checkWin`
returns false whenever some non-mine cell remains hidden. -/
theorem claim2_checkWin (b : Board) (m : Nat) :
    (checkWin b m = true ↔ revealedCount b + m = totalCount b) ∧
    (mineCells b = m →
      countCells (fun c => c.isMine && c.isRevealed) b = 0 →
      ∀ p : Pos, (getCell b p).isMine = false →
        (getCell b p).isRevealed = false → checkWin b m = false) := by
  constructor
  · simp only [checkWin, decide_eq_true_eq]
    omega
  · intro hm hnomine p hpm hpr
    have hin : InBounds b p := inBounds_of_not_revealed hpr
    have hrowmem := row_mem_of_inBounds hin
    have hcellmem := cell_mem_of_inBounds hin
    -- no revealed cell is a mine, row by row
    have hnorow : ∀ row ∈ b, ∀ cell ∈ row,
        cell.isRevealed = true → cell.isMine = false := by
      intro row hrow cell hcell hrev
      have hz : row.countP (fun c => c.isMine && c.isRevealed) = 0 := by
        have := (List.sum_eq_zero_iff).mp hnomine
        simpa using this _ (List.mem_map_of_mem _ hrow)
      have := (List.countP_eq_zero).mp hz cell hcell
      simp only [Bool.and_eq_true, not_and] at this
      cases hmine : cell.isMine
      · rfl
      · exact absurd hrev (this hmine)
    -- revealed cells are strictly fewer than non-mine cells
    have hlt : revealedCount b < countCells (fun c => !c.isMine) b := by
      unfold revealedCount countCells
      refine sum_map_lt ?_ hrowmem ?_
      · intro row hrow
        apply List.countP_mono_left
        intro cell hcell hrev
        simp [hnorow row hrow cell hcell hrev]
      · refine countP_strict ?_ hcellmem (by simp [hpm]) hpr
        intro cell hcell hrev
        simp [hnorow _ hrowmem cell hcell hrev]
    -- non-mine cells number `totalCount - mineCells`
    have htot : totalCount b = mineCells b + countCells (fun c => !c.isMine) b := by
      unfold totalCount mineCells countCells
      have : ∀ row : List Cell, row.length =
          row.countP (fun c => c.isMine) + row.countP (fun c => !c.isMine) := by
        intro row
        have := List.length_eq_countP_add_countP (fun c => c.isMine) row
        rw [this]
        congr 1
        apply List.countP_congr
        intro cell _
        cases cell.isMine <;> simp
      calc (b.map fun row => row.length).sum
          = (b.map fun row => row.countP (fun c => c.isMine) +
              row.countP (fun c => !c.isMine)).sum := by
            congr 1
            apply List.map_congr_left
            intro row _
            exact this row
        _ = _ := sum_map_add _ _ b
    simp only [checkWin, decide_eq_false_iff_not]
    omega

/-- Concrete board for the C2 witness: one hidden mine, one hidden
non-mine cell. -/
def wbC2 : Board := [[{ makeCell with isMine := true }, makeCell]]

/-- Witness for the amended claim C2 at `wbC2` with `m = 1`. -/
theorem claim2_witness :
    (mineCells wbC2 = 1 ∧
      countCells (fun c => c.isMine && c.isRevealed) wbC2 = 0 ∧
      (getCell wbC2 (0, 1)).isMine = false ∧
      (getCell wbC2 (0, 1)).isRevealed = false) ∧
    (checkWin wbC2 1 = true ↔ revealedCount wbC2 + 1 = totalCount wbC2) ∧
    checkWin wbC2 1 = false :=
  ⟨⟨by decide, by decide, by decide, by decide⟩,
    (claim2_checkWin wbC2 1).1,
    (claim2_checkWin wbC2 1).2 (by decide) (by decide) (0, 1) (by decide)
      (by decide)⟩

/-! ## Claim C4: placeMines -/

theorem length_swapL (l : List Nat) (i j : Nat) :
    (swapL l i j).length = l.length := by
  unfold swapL
  rw [List.length_set, List.length_set]

theorem count_swapL {l : List Nat} {i j : Nat} (hi : i < l.length)
    (hj : j < l.length) (a : Nat) : (swapL l i j).count a = l.count a := by
  unfold swapL
  have hx : l.getD j 0 = l[j] := List.getD_eq_getElem _ _ hj
  have hy : l.getD i 0 = l[i] := List.getD_eq_getElem _ _ hi
  rw [hx, hy]
  have hlen1 : j < (l.set i l[j]).length := by
    rw [List.length_set]
    exact hj
  rw [List.count_set _ _ _ _ hlen1, List.count_set _ _ _ _ hi,
    List.getElem_set]
  have hci : (if (l[i] == a) = true then 1 else 0) ≤ l.count a := by
    by_cases h : (l[i] == a) = true
    · rw [if_pos h]
      exact List.count_pos_iff.mpr (beq_iff_eq.mp h ▸ List.getElem_mem hi)
    · simp [h]
  have hcj : (if (l[j] == a) = true then 1 else 0) ≤ l.count a := by
    by_cases h : (l[j] == a) = true
    · rw [if_pos h]
      exact List.count_pos_iff.mpr (beq_iff_eq.mp h ▸ List.getElem_mem hj)
    · simp [h]
  by_cases hij : i = j
  · subst hij
    rw [if_pos rfl]
    omega
  · rw [if_neg hij]
    omega

theorem length_fyLoop (js : Nat → Nat) :
    ∀ (n : Nat) (l : List Nat), (fyLoop js l n).length = l.length := by
  intro n
  induction n with
  | zero => intro l; rfl
  | succ i ih =>
    intro l
    simp only [fyLoop]
    rw [ih, length_swapL]

theorem count_fyLoop (js : Nat → Nat) :
    ∀ (n : Nat) (l : List Nat), n < l.length → ∀ a,
      (fyLoop js l n).count a = l.count a := by
  intro n
  induction n with
  | zero => intro l _ a; rfl
  | succ i ih =>
    intro l hn a
    simp only [fyLoop]
    have hj : js (i + 1) % (i + 2) < l.length := by
      have := Nat.mod_lt (js (i + 1)) (show 0 < i + 2 from by omega)
      omega
    rw [ih _ (by rw [length_swapL]; omega), count_swapL hn hj]

theorem count_fisherYates (js : Nat → Nat) (l : List Nat) (a : Nat) :
    (fisherYates js l).count a = l.count a := by
  unfold fisherYates
  match l with
  | [] => rfl
  | x :: xs =>
    exact count_fyLoop js _ _ (by simp) a

theorem length_fisherYates (js : Nat → Nat) (l : List Nat) :
    (fisherYates js l).length = l.length := length_fyLoop js _ l

theorem mem_fisherYates (js : Nat → Nat) (l : List Nat) (a : Nat) :
    a ∈ fisherYates js l ↔ a ∈ l := by
  rw [← List.count_pos_iff, ← List.count_pos_iff, count_fisherYates]

theorem nodup_fisherYates (js : Nat → Nat) {l : List Nat} (h : l.Nodup) :
    (fisherYates js l).Nodup := by
  rw [List.nodup_iff_count_le_one] at h ⊢
  intro a
  rw [count_fisherYates]
  exact h a

theorem nodup_candidateIdxs (b : Board) (sr sc : Nat) :
    (candidateIdxs b sr sc).Nodup :=
  (List.nodup_range _).filter _

theorem mem_candidateIdxs (b : Board) (sr sc : Nat) (i : Nat) :
    i ∈ candidateIdxs b sr sc ↔
      i < rowsOf b * colsOf b ∧ ¬ i ∈ excludedIdxs b sr sc := by
  unfold candidateIdxs
  rw [List.mem_filter, List.mem_range]
  simp

theorem minePicks_not_excluded {js : Nat → Nat} {b : Board} {mines sr sc : Nat}
    {i : Nat} (hmem : i ∈ minePicks js b mines sr sc) :
    ¬ i ∈ excludedIdxs b sr sc := by
  have h1 : i ∈ fisherYates js (candidateIdxs b sr sc) :=
    List.take_subset _ _ hmem
  rw [mem_fisherYates] at h1
  exact ((mem_candidateIdxs b sr sc i).mp h1).2

theorem getCell_placeMines (js : Nat → Nat) (b : Board) (mines sr sc : Nat)
    (p : Pos) :
    getCell (placeMines js b mines sr sc) p =
      if InBounds b p then
        { getCell b p with
          isMine := p.1 * colsOf b + p.2 ∈ minePicks js b mines sr sc }
      else oobCell := by
  unfold placeMines
  rw [getCell_mapCells]

/-- The linear encoding is injective on in-bounds positions of a
rectangular board. -/
theorem encode_inj {b : Board} (hb : ∀ row ∈ b, row.length = colsOf b)
    {p q : Pos} (hp : InBounds b p) (hq : InBounds b q)
    (h : p.1 * colsOf b + p.2 = q.1 * colsOf b + q.2) : p = q := by
  have hpc : p.2 < colsOf b := by
    have := hb _ (row_mem_of_inBounds hp)
    rw [← this]
    exact hp
  have hqc : q.2 < colsOf b := by
    have := hb _ (row_mem_of_inBounds hq)
    rw [← this]
    exact hq
  have h1 : p.1 = q.1 := by
    by_contra hc
    rcases Nat.lt_or_ge p.1 q.1 with hlt | hge
    · have hle : (p.1 + 1) * colsOf b ≤ q.1 * colsOf b :=
        Nat.mul_le_mul_right _ (by omega)
      have hexp : (p.1 + 1) * colsOf b = p.1 * colsOf b + colsOf b := by ring
      omega
    · have hlt : q.1 < p.1 := by omega
      have hle : (q.1 + 1) * colsOf b ≤ p.1 * colsOf b :=
        Nat.mul_le_mul_right _ (by omega)
      have hexp : (q.1 + 1) * colsOf b = q.1 * colsOf b + colsOf b := by ring
      omega
  have h2 : p.2 = q.2 := by
    rw [h1] at h
    omega
  exact Prod.ext h1 h2

/-- Claim C4, part 1: no mine lands on the safe cell or any of its
neighbors. -/
theorem placeMines_safe_zone (js : Nat → Nat) (b : Board) (mines sr sc : Nat)
    (hin : InBounds b (sr, sc)) :
    (getCell (placeMines js b mines sr sc) (sr, sc)).isMine = false ∧
    ∀ p ∈ neighbors b sr sc,
      (getCell (placeMines js b mines sr sc) p).isMine = false := by
  constructor
  · rw [getCell_placeMines, if_pos hin]
    simp only [decide_eq_false_iff_not]
    intro hmem
    exact minePicks_not_excluded hmem (List.mem_cons_self _ _)
  · intro p hp
    rw [getCell_placeMines]
    split
    · simp only [decide_eq_false_iff_not]
      intro hmem
      apply minePicks_not_excluded hmem
      unfold excludedIdxs
      exact List.mem_cons_of_mem _ (List.mem_map_of_mem _ hp)
    · rfl

theorem countP_mem_cons {s : Nat} {S : List Nat} (hd : ¬ s ∈ S) :
    ∀ l : List Nat, l.countP (fun i => decide (i ∈ s :: S)) =
      l.count s + l.countP (fun i => decide (i ∈ S)) := by
  intro l
  induction l with
  | nil => rfl
  | cons a l ih =>
    simp only [List.countP_cons, List.count_cons, ih]
    by_cases has : a = s
    · subst has
      have haS : ¬ a ∈ S := hd
      simp [haS, List.mem_cons]
      try omega
    · by_cases haS : a ∈ S
      · simp [has, haS, List.mem_cons]
        try omega
      · simp [has, haS, List.mem_cons]
        try omega

theorem countP_mem_range {S : List Nat} (hnd : S.Nodup) :
    ∀ {N : Nat}, (∀ s ∈ S, s < N) →
      (List.range N).countP (fun i => decide (i ∈ S)) = S.length := by
  induction S with
  | nil => intro N _; simp
  | cons s S ih =>
    intro N hsub
    have hd : ¬ s ∈ S := (List.nodup_cons.mp hnd).1
    rw [countP_mem_cons hd,
      List.count_eq_one_of_mem (List.nodup_range N)
        (List.mem_range.mpr (hsub s (List.mem_cons_self _ _))),
      ih (List.nodup_cons.mp hnd).2
        (fun x hx => hsub x (List.mem_cons_of_mem _ hx))]
    simp [Nat.add_comm]

theorem countP_isMine_mapRow (S : List Nat) (cols r : Nat) :
    ∀ (row : List Cell) (c0 : Nat),
      (mapRow (fun r c cell =>
          { cell with isMine := decide (r * cols + c ∈ S) }) r c0 row).countP
        (fun c => c.isMine) =
      (List.range' c0 row.length).countP (fun c => decide (r * cols + c ∈ S)) := by
  intro row
  induction row with
  | nil => intro c0; rfl
  | cons cell cs ih =>
    intro c0
    simp only [mapRow, List.length_cons, List.range'_succ, List.countP_cons, ih]

theorem countP_isMine_mapRows (S : List Nat) (cols : Nat) :
    ∀ (b : Board) (r0 : Nat), (∀ row ∈ b, row.length = cols) →
      ((mapRows (fun r c cell =>
          { cell with isMine := decide (r * cols + c ∈ S) }) r0 b).map
        fun row => row.countP (fun c => c.isMine)).sum =
      (List.range' (r0 * cols) (b.length * cols)).countP
        (fun i => decide (i ∈ S)) := by
  intro b
  induction b with
  | nil => intro r0 _; simp [mapRows]
  | cons row rest ih =>
    intro r0 hb
    have hrow : row.length = cols := hb row (List.mem_cons_self _ _)
    have hrest : ∀ r ∈ rest, r.length = cols :=
      fun r hr => hb r (List.mem_cons_of_mem _ hr)
    simp only [mapRows, List.map_cons, List.sum_cons]
    rw [countP_isMine_mapRow, ih (r0 + 1) hrest, hrow]
    -- first row: reindex `range' 0 cols` to `range' (r0*cols) cols`
    have hfirst : (List.range' 0 cols).countP
        (fun c => decide (r0 * cols + c ∈ S)) =
        (List.range' (r0 * cols) cols).countP (fun i => decide (i ∈ S)) := by
      rw [List.range'_eq_map_range (r0 * cols) cols, List.countP_map,
        ← List.range_eq_range']
      rfl
    rw [hfirst]
    have happ := List.range'_append (r0 * cols) cols (rest.length * cols) 1
    have harith1 : r0 * cols + 1 * cols = (r0 + 1) * cols := by ring
    have harith2 : rest.length * cols + cols = (row :: rest).length * cols := by
      simp [List.length_cons]
      ring
    rw [harith1] at happ
    rw [← harith2, ← happ, List.countP_append]

/-- Claim C4, part 2: with enough room, exactly `mines` mine cells are
placed. -/
theorem mineCells_placeMines (js : Nat → Nat) (b : Board) (mines sr sc : Nat)
    (hb : ∀ row ∈ b, row.length = colsOf b)
    (hmines : mines ≤ (candidateIdxs b sr sc).length) :
    mineCells (placeMines js b mines sr sc) = mines := by
  have hlenS : (minePicks js b mines sr sc).length = mines := by
    unfold minePicks
    rw [List.length_take, length_fisherYates]
    unfold candidateIdxs at hmines ⊢
    omega
  have hndS : (minePicks js b mines sr sc).Nodup :=
    (List.take_sublist _ _).nodup
      (nodup_fisherYates js (nodup_candidateIdxs b sr sc))
  have hsubS : ∀ s ∈ minePicks js b mines sr sc, s < b.length * colsOf b := by
    intro s hs
    have h1 : s ∈ fisherYates js (candidateIdxs b sr sc) :=
      List.take_subset _ _ hs
    rw [mem_fisherYates] at h1
    exact ((mem_candidateIdxs b sr sc s).mp h1).1
  unfold mineCells countCells placeMines mapCells
  have := countP_isMine_mapRows (minePicks js b mines sr sc) (colsOf b) b 0 hb
  rw [this]
  rw [show (0 * colsOf b) = 0 from by ring, ← List.range_eq_range']
  rw [countP_mem_range hndS hsubS]
  exact hlenS

/-- Claim C4: `placeMines` never mines the safe cell or its neighbors,
and, when `mineCount` does not exceed the number of positions outside the
exclusion zone, places exactly `mineCount` distinct mines. -/
theorem claim4_placeMines (js : Nat → Nat) (b : Board) (mines sr sc : Nat)
    (hb : ∀ row ∈ b, row.length = colsOf b) (hin : InBounds b (sr, sc)) :
    ((getCell (placeMines js b mines sr sc) (sr, sc)).isMine = false ∧
      ∀ p ∈ neighbors b sr sc,
        (getCell (placeMines js b mines sr sc) p).isMine = false) ∧
    (mines ≤ (candidateIdxs b sr sc).length →
      mineCells (placeMines js b mines sr sc) = mines) :=
  ⟨placeMines_safe_zone js b mines sr sc hin,
    fun hmines => mineCells_placeMines js b mines sr sc hb hmines⟩

/-- Witness for claim C4 on the empty 9×9 beginner board with 10 mines and
safe cell (4,4), under one concrete random stream. -/
theorem claim4_witness :
    ((∀ row ∈ makeEmptyBoard 9 9, row.length = colsOf (makeEmptyBoard 9 9)) ∧
      InBounds (makeEmptyBoard 9 9) (4, 4) ∧
      10 ≤ (candidateIdxs (makeEmptyBoard 9 9) 4 4).length) ∧
    ((getCell (placeMines (fun k => 7 * k + 3) (makeEmptyBoard 9 9) 10 4 4)
        (4, 4)).isMine = false ∧
      mineCells (placeMines (fun k => 7 * k + 3) (makeEmptyBoard 9 9) 10 4 4)
        = 10) :=
  ⟨⟨by decide, by decide, by decide⟩,
    (claim4_placeMines (fun k => 7 * k + 3) (makeEmptyBoard 9 9) 10 4 4
      (by decide) (by decide)).1.1,
    (claim4_placeMines (fun k => 7 * k + 3) (makeEmptyBoard 9 9) 10 4 4
      (by decide) (by decide)).2 (by decide)⟩

/-! ## `revealAllMines` and `findRevealedMine` lemmas -/

theorem getCell_revealAllMines (b : Board) (p : Pos) :
    getCell (revealAllMines b) p =
      if InBounds b p then
        (if (getCell b p).isMine then
          { getCell b p with isRevealed := true } else getCell b p)
      else oobCell := by
  unfold revealAllMines
  rw [getCell_mapCells]

theorem revealAllMines_isMine (b : Board) (p : Pos) :
    (getCell (revealAllMines b) p).isMine = (getCell b p).isMine := by
  rw [getCell_revealAllMines]
  by_cases h : InBounds b p
  · rw [if_pos h]
    split <;> rfl
  · rw [if_neg h, getCell_of_not_inBounds h]

theorem revealAllMines_isFlagged (b : Board) (p : Pos) :
    (getCell (revealAllMines b) p).isFlagged = (getCell b p).isFlagged := by
  rw [getCell_revealAllMines]
  by_cases h : InBounds b p
  · rw [if_pos h]
    split <;> rfl
  · rw [if_neg h, getCell_of_not_inBounds h]

theorem revealAllMines_adjacentMines (b : Board) (p : Pos) :
    (getCell (revealAllMines b) p).adjacentMines =
      (getCell b p).adjacentMines := by
  rw [getCell_revealAllMines]
  by_cases h : InBounds b p
  · rw [if_pos h]
    split <;> rfl
  · rw [if_neg h, getCell_of_not_inBounds h]

theorem revealAllMines_revealed (b : Board) (p : Pos) :
    (getCell (revealAllMines b) p).isRevealed = true ↔
      (getCell b p).isRevealed = true ∨ (getCell b p).isMine = true := by
  rw [getCell_revealAllMines]
  by_cases h : InBounds b p
  · rw [if_pos h]
    by_cases hm : (getCell b p).isMine = true
    · simp [hm]
    · simp only [Bool.not_eq_true] at hm
      simp [hm]
  · rw [if_neg h, getCell_of_not_inBounds h]
    simp [oobCell]

/-- After `revealAllMines`, every mine cell is revealed. -/
theorem revealAllMines_all_revealed (b : Board) (p : Pos)
    (hm : (getCell (revealAllMines b) p).isMine = true) :
    (getCell (revealAllMines b) p).isRevealed = true := by
  rw [revealAllMines_isMine] at hm
  exact (revealAllMines_revealed b p).mpr (Or.inr hm)

theorem findRevealedMineRow_none : ∀ (row : List Cell) (r c0 : Nat),
    findRevealedMineRow r c0 row = none →
    ∀ c, ¬ ((row.getD c oobCell).isMine = true ∧
      (row.getD c oobCell).isRevealed = true) := by
  intro row
  induction row with
  | nil =>
    intro r c0 _ c
    simp [oobCell]
  | cons cell cs ih =>
    intro r c0 h c
    simp only [findRevealedMineRow] at h
    split at h
    · cases h
    · rename_i hnot
      cases c with
      | zero => simpa using hnot
      | succ n => exact ih r (c0 + 1) h n

theorem findRevealedMineRow_some : ∀ (row : List Cell) (r c0 : Nat) (p : Pos),
    findRevealedMineRow r c0 row = some p →
    p.1 = r ∧ c0 ≤ p.2 ∧ p.2 - c0 < row.length ∧
    ((row.getD (p.2 - c0) oobCell).isMine = true ∧
      (row.getD (p.2 - c0) oobCell).isRevealed = true) ∧
    ∀ c, c < p.2 - c0 → ¬ ((row.getD c oobCell).isMine = true ∧
      (row.getD c oobCell).isRevealed = true) := by
  intro row
  induction row with
  | nil => intro r c0 p h; cases h
  | cons cell cs ih =>
    intro r c0 p h
    simp only [findRevealedMineRow] at h
    split at h
    · rename_i hyes
      cases h
      refine ⟨rfl, Nat.le_refl _, ?_, ?_, ?_⟩
      · simp
      · simpa using hyes
      · intro c hc
        omega
    · rename_i hnot
      obtain ⟨h1, h2, h3, h4, h5⟩ := ih r (c0 + 1) p h
      have hc0 : c0 < p.2 := by omega
      have hsub : p.2 - c0 = (p.2 - (c0 + 1)) + 1 := by omega
      refine ⟨h1, by omega, by simpa [hsub] using by omega, ?_, ?_⟩
      · rw [hsub]
        simpa using h4
      · intro c hc
        cases c with
        | zero => simpa using hnot
        | succ n =>
          simp only [List.getD_cons_succ]
          exact h5 n (by omega)

theorem findRevealedMineAux_none : ∀ (b : Board) (r0 : Nat),
    findRevealedMineAux r0 b = none →
    ∀ (i c : Nat), ¬ (((b.getD i []).getD c oobCell).isMine = true ∧
      ((b.getD i []).getD c oobCell).isRevealed = true) := by
  intro b
  induction b with
  | nil =>
    intro r0 _ i c
    simp [oobCell]
  | cons row rest ih =>
    intro r0 h i c
    simp only [findRevealedMineAux] at h
    split at h
    · cases h
    · rename_i hrow
      cases i with
      | zero => exact findRevealedMineRow_none row r0 0 hrow c
      | succ n => exact ih (r0 + 1) h n c

theorem findRevealedMineAux_some : ∀ (b : Board) (r0 : Nat) (p : Pos),
    findRevealedMineAux r0 b = some p →
    r0 ≤ p.1 ∧ p.1 - r0 < b.length ∧
    (((b.getD (p.1 - r0) []).getD p.2 oobCell).isMine = true ∧
      ((b.getD (p.1 - r0) []).getD p.2 oobCell).isRevealed = true) ∧
    (∀ i c, i < p.1 - r0 → ¬ (((b.getD i []).getD c oobCell).isMine = true ∧
      ((b.getD i []).getD c oobCell).isRevealed = true)) ∧
    (∀ c, c < p.2 → ¬ (((b.getD (p.1 - r0) []).getD c oobCell).isMine = true ∧
      ((b.getD (p.1 - r0) []).getD c oobCell).isRevealed = true)) := by
  intro b
  induction b with
  | nil => intro r0 p h; cases h
  | cons row rest ih =>
    intro r0 p h
    simp only [findRevealedMineAux] at h
    split at h
    · rename_i q hq
      cases h
      obtain ⟨h1, h2, h3, h4, h5⟩ := findRevealedMineRow_some row r0 0 p hq
      have hd : p.1 - r0 = 0 := by omega
      refine ⟨by omega, by simp [hd], ?_, ?_, ?_⟩
      · rw [hd]
        simpa using h4
      · intro i c hi
        omega
      · intro c hc
        rw [hd]
        simp only [List.getD_cons_zero]
        exact h5 c (by omega)
    · rename_i hrow
      obtain ⟨h1, h2, h3, h4, h5⟩ := ih (r0 + 1) p h
      have hsub : p.1 - r0 = (p.1 - (r0 + 1)) + 1 := by omega
      refine ⟨by omega, by simp only [List.length_cons]; omega, ?_, ?_, ?_⟩
      · rw [hsub]
        simpa using h3
      · intro i c hi
        cases i with
        | zero => exact findRevealedMineRow_none row r0 0 hrow c
        | succ n =>
          simp only [List.getD_cons_succ]
          exact h4 n c (by omega)
      · intro c hc
        rw [hsub]
        simpa using h5 c hc

/-- `findRevealedMine` finds a revealed mine that is first in row-major
order. -/
theorem findRevealedMine_some {b : Board} {p : Pos}
    (h : findRevealedMine b = some p) :
    ((getCell b p).isMine = true ∧ (getCell b p).isRevealed = true) ∧
    ∀ q : Pos, (q.1 < p.1 ∨ (q.1 = p.1 ∧ q.2 < p.2)) →
      ¬ ((getCell b q).isMine = true ∧ (getCell b q).isRevealed = true) := by
  obtain ⟨h1, h2, h3, h4, h5⟩ := findRevealedMineAux_some b 0 p h
  simp only [Nat.sub_zero] at h3 h4 h5
  refine ⟨h3, ?_⟩
  intro q hq
  rcases hq with hlt | ⟨heq, hlt⟩
  · exact h4 q.1 q.2 hlt
  · rw [show (getCell b q) = (b.getD q.1 []).getD q.2 oobCell from rfl, heq]
    exact h5 q.2 hlt

theorem findRevealedMine_none {b : Board} (h : findRevealedMine b = none) :
    ∀ p : Pos, ¬ ((getCell b p).isMine = true ∧
      (getCell b p).isRevealed = true) := by
  intro p
  exact findRevealedMineAux_none b 0 h p.1 p.2

/-! ## `toggleFlag` lemmas -/

theorem toggleFlag_isMine (b : Board) (row col : Nat) (p : Pos) :
    (getCell (toggleFlag b row col) p).isMine = (getCell b p).isMine := by
  unfold toggleFlag
  split
  · rfl
  · rw [getCell_mapCells]
    split
    · unfold pointUpd
      split <;> rfl
    · rename_i h
      rw [getCell_of_not_inBounds h]

theorem toggleFlag_isRevealed (b : Board) (row col : Nat) (p : Pos) :
    (getCell (toggleFlag b row col) p).isRevealed =
      (getCell b p).isRevealed := by
  unfold toggleFlag
  split
  · rfl
  · rw [getCell_mapCells]
    split
    · unfold pointUpd
      split <;> rfl
    · rename_i h
      rw [getCell_of_not_inBounds h]

theorem toggleFlag_adjacentMines (b : Board) (row col : Nat) (p : Pos) :
    (getCell (toggleFlag b row col) p).adjacentMines =
      (getCell b p).adjacentMines := by
  unfold toggleFlag
  split
  · rfl
  · rw [getCell_mapCells]
    split
    · unfold pointUpd
      split <;> rfl
    · rename_i h
      rw [getCell_of_not_inBounds h]

theorem toggleFlag_target {b : Board} {row col : Nat}
    (hunrev : (getCell b (row, col)).isRevealed = false)
    (hin : InBounds b (row, col)) :
    (getCell (toggleFlag b row col) (row, col)).isFlagged =
      !(getCell b (row, col)).isFlagged := by
  unfold toggleFlag
  rw [if_neg (by simp [hunrev]), getCell_mapCells, if_pos hin]
  unfold pointUpd
  rw [if_pos ⟨rfl, rfl⟩]

theorem toggleFlag_isFlagged_other (b : Board) (row col : Nat) {p : Pos}
    (hne : p ≠ (row, col)) :
    (getCell (toggleFlag b row col) p).isFlagged =
      (getCell b p).isFlagged := by
  unfold toggleFlag
  split
  · rfl
  · rw [getCell_mapCells]
    split
    · unfold pointUpd
      rw [if_neg (fun hh => hne (Prod.ext hh.1 hh.2))]
    · rename_i h
      rw [getCell_of_not_inBounds h]

/-! ## Claim C6: losing by chord -/

/-- Board refuting claim C6: the first mine in row-major order is the
flagged, unrevealed `(0,0)`; the chord at `(0,2)` reveals the mine `(0,3)`,
and the loop records `(0,3)` — the first *revealed* mine — not `(0,0)`. -/
def cexC6 : Board :=
  [[{ makeCell with isMine := true, isFlagged := true },
    { makeCell with isFlagged := true, adjacentMines := 1 },
    { makeCell with isRevealed := true, adjacentMines := 1 },
    { makeCell with isMine := true }]]

def cexC6State : GameState :=
  { board := cexC6, status := .playing, difficulty := .beginner,
    flagCount := 2, elapsed := 0, startTime := none, losingCell := none }

/-- Claim C6 as stated is false: after the chord, the mine `(0,3)` is
revealed, the first mine found during a row-major full-board scan is
`(0,0)` (it is the very first cell), yet `losingCell` is `(0,3)`, because
the loop scans for *revealed* mines, skipping the still-hidden flagged
mine at `(0,0)`. -/
theorem claim6_counterexample :
    cexC6State.status = GameStatus.playing ∧
    ((getCell (chordReveal cexC6State.board 0 2) (0, 3)).isMine = true ∧
      (getCell (chordReveal cexC6State.board 0 2) (0, 3)).isRevealed = true) ∧
    (getCell cexC6State.board (0, 0)).isMine = true ∧
    (reducer (fun _ => 0) cexC6State (Action.chord 0 2)).status =
      GameStatus.lost ∧
    (reducer (fun _ => 0) cexC6State (Action.chord 0 2)).losingCell =
      some (0, 3) ∧
    (reducer (fun _ => 0) cexC6State (Action.chord 0 2)).losingCell ≠
      some (0, 0) := by
  decide

/-- Claim C6, amended: when a Chord move on a playing state reveals at
least one mine, the result is `lost`, every mine on the resulting board is
revealed, and `losingCell` is the first cell that is a *revealed mine* in
a row-major full-board scan of the post-chord board. -/
theorem claim6_chord_loss (js : Nat → Nat) (s : GameState) (row col : Nat)
    (hst : s.status = .playing)
    (hmine : ∃ p : Pos,
      (getCell (chordReveal s.board row col) p).isMine = true ∧
      (getCell (chordReveal s.board row col) p).isRevealed = true) :
    (reducer js s (.chord row col)).status = .lost ∧
    (∀ p : Pos,
      (getCell (reducer js s (.chord row col)).board p).isMine = true →
      (getCell (reducer js s (.chord row col)).board p).isRevealed = true) ∧
    ∃ p : Pos, (reducer js s (.chord row col)).losingCell = some p ∧
      ((getCell (chordReveal s.board row col) p).isMine = true ∧
        (getCell (chordReveal s.board row col) p).isRevealed = true) ∧
      ∀ q : Pos, (q.1 < p.1 ∨ (q.1 = p.1 ∧ q.2 < p.2)) →
        ¬ ((getCell (chordReveal s.board row col) q).isMine = true ∧
          (getCell (chordReveal s.board row col) q).isRevealed = true) := by
  simp only [reducer]
  rw [if_neg (by simp [hst])]
  cases hfind : findRevealedMine (chordReveal s.board row col) with
  | none =>
    exfalso
    obtain ⟨p, hp1, hp2⟩ := hmine
    exact findRevealedMine_none hfind p ⟨hp1, hp2⟩
  | some q =>
    simp only [hfind]
    obtain ⟨hq1, hq2⟩ := findRevealedMine_some hfind
    exact ⟨trivial, fun p hp => revealAllMines_all_revealed _ p hp,
      q, rfl, hq1, hq2⟩

/-- Witness for the amended claim C6 at the concrete state `cexC6State`. -/
theorem claim6_witness :
    (cexC6State.status = GameStatus.playing ∧
      (getCell (chordReveal cexC6State.board 0 2) (0, 3)).isMine = true ∧
      (getCell (chordReveal cexC6State.board 0 2) (0, 3)).isRevealed = true) ∧
    ((reducer (fun _ => 0) cexC6State (.chord 0 2)).status = .lost ∧
      ∀ p : Pos,
        (getCell (reducer (fun _ => 0) cexC6State (.chord 0 2)).board p).isMine
          = true →
        (getCell (reducer (fun _ => 0) cexC6State (.chord 0 2)).board p).isRevealed
          = true) :=
  ⟨⟨by decide, by decide, by decide⟩,
    (claim6_chord_loss (fun _ => 0) cexC6State 0 2 (by decide)
      ⟨(0, 3), by decide, by decide⟩).1,
    (claim6_chord_loss (fun _ => 0) cexC6State 0 2 (by decide)
      ⟨(0, 3), by decide, by decide⟩).2.1⟩

/-! ## Claim C7: flagging from idle -/

/-- Claim C7: a Flag move on an idle state at an unrevealed in-bounds cell
moves the status to `playing`, toggles that cell's flag, adjusts
`flagCount` by ±1, and places no mines: a mine-free board stays entirely
mine-free. -/
theorem claim7_flag_idle (js : Nat → Nat) (s : GameState) (row col : Nat)
    (hst : s.status = .idle)
    (hunrev : (getCell s.board (row, col)).isRevealed = false)
    (hin : InBounds s.board (row, col))
    (hnomine : ∀ p : Pos, (getCell s.board p).isMine = false) :
    (reducer js s (.flag row col)).status = .playing ∧
    (getCell (reducer js s (.flag row col)).board (row, col)).isFlagged =
      !(getCell s.board (row, col)).isFlagged ∧
    (reducer js s (.flag row col)).flagCount =
      s.flagCount +
        (if (getCell s.board (row, col)).isFlagged then -1 else 1) ∧
    ∀ p : Pos, (getCell (reducer js s (.flag row col)).board p).isMine =
      false := by
  simp only [reducer]
  rw [if_neg (by simp [hst]), if_neg (by simp [hunrev])]
  refine ⟨?_, ?_, ?_, ?_⟩
  · simp [hst]
  · exact toggleFlag_target hunrev hin
  · simp only
    rw [toggleFlag_target hunrev hin]
    cases hf : (getCell s.board (row, col)).isFlagged <;> simp
  · intro p
    simp only
    rw [toggleFlag_isMine]
    exact hnomine p

/-- Witness for claim C7: flag `(0,0)` on the fresh beginner board. -/
theorem claim7_witness :
    ((makeInitialState Difficulty.beginner).status = .idle ∧
      (getCell (makeInitialState Difficulty.beginner).board (0, 0)).isRevealed
        = false ∧
      InBounds (makeInitialState Difficulty.beginner).board (0, 0)) ∧
    ((reducer (fun _ => 0) (makeInitialState .beginner)
        (.flag 0 0)).status = .playing ∧
      (reducer (fun _ => 0) (makeInitialState .beginner)
        (.flag 0 0)).flagCount =
        (makeInitialState Difficulty.beginner).flagCount +
          (if (getCell (makeInitialState Difficulty.beginner).board
            (0, 0)).isFlagged then -1 else 1) ∧
      ∀ p : Pos, (getCell (reducer (fun _ => 0)
        (makeInitialState .beginner) (.flag 0 0)).board p).isMine = false) := by
  have hnm : ∀ p : Pos,
      (getCell (makeInitialState Difficulty.beginner).board p).isMine = false := by
    intro p
    by_cases hin : InBounds (makeInitialState Difficulty.beginner).board p
    · have hr := row_mem_of_inBounds hin
      have hc := cell_mem_of_inBounds hin
      have : (makeInitialState Difficulty.beginner).board =
          List.replicate 9 (List.replicate 9 makeCell) := rfl
      rw [this] at hr hc
      have hrow := List.eq_of_mem_replicate hr
      rw [hrow] at hc
      have hcell := List.eq_of_mem_replicate hc
      have hcell' : getCell (makeInitialState Difficulty.beginner).board p =
          makeCell := hcell
      rw [hcell']
      rfl
    · rw [getCell_of_not_inBounds hin]
      rfl
  have h := claim7_flag_idle (fun _ => 0) (makeInitialState .beginner) 0 0
    (by decide) (by decide) (by decide) hnm
  exact ⟨⟨by decide, by decide, by decide⟩, h.1, h.2.2.1, h.2.2.2⟩

/-! ## Claim C8: terminal states and ticks -/

/-- Claim C8: in a `won` or `lost` state, the Reveal, Flag, Chord and Tick
moves all return the state unchanged; `tick` is a no-op in every status
except `playing`, where it increments `elapsed` by one. -/
theorem claim8_terminal_moves (js : Nat → Nat) (s : GameState) :
    ((s.status = .won ∨ s.status = .lost) →
      (∀ row col, reducer js s (.reveal row col) = s) ∧
      (∀ row col, reducer js s (.flag row col) = s) ∧
      (∀ row col, reducer js s (.chord row col) = s) ∧
      reducer js s .tick = s) ∧
    (s.status ≠ .playing → reducer js s .tick = s) ∧
    (s.status = .playing →
      reducer js s .tick = { s with elapsed := s.elapsed + 1 }) := by
  refine ⟨?_, ?_, ?_⟩
  · intro hterm
    have hnp : s.status ≠ .playing := by
      rcases hterm with h | h <;> simp [h]
    refine ⟨?_, ?_, ?_, ?_⟩
    · intro row col
      simp only [reducer]
      rw [if_pos hterm]
    · intro row col
      simp only [reducer]
      rw [if_pos hterm]
    · intro row col
      simp only [reducer]
      rw [if_pos hnp]
    · simp only [reducer]
      rw [if_pos hnp]
  · intro hnp
    simp only [reducer]
    rw [if_pos hnp]
  · intro hp
    simp only [reducer]
    rw [if_neg (by simp [hp])]

/-- Witness for claim C8: a lost beginner state ignores all four moves,
and a playing state ticks. -/
theorem claim8_witness :
    ({ makeInitialState Difficulty.beginner with
        status := GameStatus.lost }.status = GameStatus.won ∨
      { makeInitialState Difficulty.beginner with
        status := GameStatus.lost }.status = GameStatus.lost) ∧
    (reducer (fun _ => 0)
      { makeInitialState .beginner with status := .lost } (.reveal 0 0) =
      { makeInitialState .beginner with status := .lost }) ∧
    (reducer (fun _ => 0)
      { makeInitialState .beginner with status := .playing } .tick =
      { { makeInitialState .beginner with status := .playing } with
        elapsed := { makeInitialState Difficulty.beginner with
          status := GameStatus.playing }.elapsed + 1 }) :=
  ⟨Or.inr (by decide),
    ((claim8_terminal_moves (fun _ => 0) _).1 (Or.inr (by decide))).1 0 0,
    (claim8_terminal_moves (fun _ => 0) _).2.2 (by decide)⟩

/-! ## Count preservation through the reveal pipeline -/

theorem countCells_reveal1_pres {P : Cell → Bool}
    (hP : ∀ cell, P { cell with isRevealed := true } = P cell)
    (b : Board) (p : Pos) :
    countCells P (reveal1 b p) = countCells P b := by
  apply countCells_mapCells_of_preserve
  intro r c cell
  unfold pointUpd
  split
  · exact hP cell
  · rfl

theorem countCells_revealNbrs_pres {P : Cell → Bool}
    (hP : ∀ cell, P { cell with isRevealed := true } = P cell) :
    ∀ (ns : List Pos) (b : Board),
    countCells P (revealNbrs b ns).1 = countCells P b := by
  intro ns
  induction ns with
  | nil => intro b; rfl
  | cons n ns ih =>
    intro b
    simp only [revealNbrs]
    split
    · rw [ih, countCells_reveal1_pres hP]
    · exact ih b

theorem countCells_bfsFuel_pres {P : Cell → Bool}
    (hP : ∀ cell, P { cell with isRevealed := true } = P cell) :
    ∀ (fuel : Nat) (b : Board) (q : List Pos),
    countCells P (bfsFuel fuel b q) = countCells P b := by
  intro fuel
  induction fuel with
  | zero => intro b q; rfl
  | succ fuel ih =>
    intro b q
    match q with
    | [] => rfl
    | p :: rest =>
      simp only [bfsFuel]
      split
      · rw [ih, countCells_revealNbrs_pres hP]
      · exact ih b rest

theorem countCells_revealCell_pres {P : Cell → Bool}
    (hP : ∀ cell, P { cell with isRevealed := true } = P cell)
    (b : Board) (row col : Nat) :
    countCells P (revealCell b row col) = countCells P b := by
  unfold revealCell
  split
  · rfl
  · rw [countCells_bfsFuel_pres hP, countCells_reveal1_pres hP]

theorem countCells_chordFold_pres {P : Cell → Bool}
    (hP : ∀ cell, P { cell with isRevealed := true } = P cell) (b : Board) :
    ∀ (l : List Pos) (acc : Board),
      countCells P (l.foldl (chordStep b) acc) = countCells P acc := by
  intro l
  induction l with
  | nil => intro acc; rfl
  | cons n ns ih =>
    intro acc
    simp only [List.foldl_cons]
    rw [ih]
    unfold chordStep
    split
    · rw [countCells_revealCell_pres hP]
    · rfl

theorem countCells_chordReveal_pres {P : Cell → Bool}
    (hP : ∀ cell, P { cell with isRevealed := true } = P cell)
    (b : Board) (row col : Nat) :
    countCells P (chordReveal b row col) = countCells P b := by
  rw [chordReveal_eq_foldl]
  split
  · rfl
  · split
    · rfl
    · exact countCells_chordFold_pres hP b _ b

theorem countCells_revealAllMines_pres {P : Cell → Bool}
    (hP : ∀ cell, P { cell with isRevealed := true } = P cell) (b : Board) :
    countCells P (revealAllMines b) = countCells P b := by
  apply countCells_mapCells_of_preserve
  intro r c cell
  split
  · exact hP cell
  · rfl

theorem flagCells_placeMines (js : Nat → Nat) (b : Board)
    (mines sr sc : Nat) :
    flagCells (placeMines js b mines sr sc) = flagCells b := by
  unfold flagCells placeMines
  apply countCells_mapCells_of_preserve
  intro r c cell
  rfl

theorem flagCells_computeAdjacent (b : Board) :
    flagCells (computeAdjacent b) = flagCells b := by
  unfold flagCells computeAdjacent
  apply countCells_mapCells_of_preserve
  intro r c cell
  split <;> rfl

theorem flagCells_revealCell (b : Board) (row col : Nat) :
    flagCells (revealCell b row col) = flagCells b := by
  unfold flagCells
  apply countCells_revealCell_pres
  intro cell
  rfl

theorem flagCells_chordReveal (b : Board) (row col : Nat) :
    flagCells (chordReveal b row col) = flagCells b := by
  unfold flagCells
  apply countCells_chordReveal_pres
  intro cell
  rfl

theorem flagCells_revealAllMines (b : Board) :
    flagCells (revealAllMines b) = flagCells b := by
  unfold flagCells
  apply countCells_revealAllMines_pres
  intro cell
  rfl

theorem flagCells_makeEmptyBoard (rows cols : Nat) :
    flagCells (makeEmptyBoard rows cols) = 0 := by
  unfold flagCells countCells makeEmptyBoard
  rw [List.sum_eq_zero_iff]
  intro x hx
  rw [List.mem_map] at hx
  obtain ⟨row, hrow, hcount⟩ := hx
  have := List.eq_of_mem_replicate hrow
  subst this
  rw [← hcount, List.countP_eq_zero]
  intro cell hcell
  have := List.eq_of_mem_replicate hcell
  subst this
  simp [makeCell]

/-- Toggling the flag of an in-bounds, unrevealed cell changes the flag
count by exactly one, in the direction of the new flag state. -/
theorem flagCells_toggleFlag {b : Board} {row col : Nat}
    (hunrev : (getCell b (row, col)).isRevealed = false)
    (hin : InBounds b (row, col)) :
    flagCells (toggleFlag b row col) +
      (if (getCell b (row, col)).isFlagged then 1 else 0) =
    flagCells b +
      (if (getCell b (row, col)).isFlagged then 0 else 1) := by
  unfold toggleFlag flagCells
  rw [if_neg (by simp [hunrev])]
  have h := countCells_pointUpd (fun c => c.isFlagged)
    (fun c => { c with isFlagged := !c.isFlagged }) (row, col) b hin
  cases hf : (getCell b (row, col)).isFlagged
  · simp only [hf] at h
    simpa using h
  · simp only [hf] at h
    simpa using h

/-! ## Claim C9: the flag-count invariant -/

/-- A move whose coordinates (if any) are in bounds of the current board. -/
def ActionInBounds (s : GameState) : Action → Prop
  | .reveal row col => InBounds s.board (row, col)
  | .flag row col => InBounds s.board (row, col)
  | .chord row col => InBounds s.board (row, col)
  | _ => True

/-- States reachable from an initial state through reducer moves with
in-bounds coordinates (the random stream of each first reveal may differ). -/
inductive Reachable : GameState → Prop where
  | init (d : Difficulty) : Reachable (makeInitialState d)
  | step {s : GameState} (js : Nat → Nat) (a : Action) :
      Reachable s → ActionInBounds s a → Reachable (reducer js s a)

theorem flagCount_initial (d : Difficulty) :
    (makeInitialState d).flagCount =
      (flagCells (makeInitialState d).board : Int) := by
  unfold makeInitialState
  simp [flagCells_makeEmptyBoard]

/-- One reducer step preserves `flagCount = number of flagged cells`. -/
theorem flagCount_step (js : Nat → Nat) (s : GameState) (a : Action)
    (hin : ActionInBounds s a)
    (ih : s.flagCount = (flagCells s.board : Int)) :
    (reducer js s a).flagCount =
      (flagCells (reducer js s a).board : Int) := by
  cases a with
  | newGame => exact flagCount_initial s.difficulty
  | setDifficulty d => exact flagCount_initial d
  | tick =>
    simp only [reducer]
    split
    · exact ih
    · exact ih
  | flag row col =>
    simp only [reducer]
    by_cases hterm : s.status = .won ∨ s.status = .lost
    · rw [if_pos hterm]
      exact ih
    · rw [if_neg hterm]
      by_cases hrev : (getCell s.board (row, col)).isRevealed = true
      · rw [if_pos hrev]
        exact ih
      · rw [if_neg hrev]
        have hunrev : (getCell s.board (row, col)).isRevealed = false := by
          simpa using hrev
        have htog := flagCells_toggleFlag hunrev hin
        show s.flagCount +
            (if (getCell (toggleFlag s.board row col) (row, col)).isFlagged
              then 1 else -1) =
          (flagCells (toggleFlag s.board row col) : Int)
        rw [toggleFlag_target hunrev hin, ih]
        cases hf : (getCell s.board (row, col)).isFlagged
        · have hone : (if ((!false : Bool) = true) then (1 : Int) else -1)
              = 1 := rfl
          rw [hone]
          have htog2 : flagCells (toggleFlag s.board row col) =
              flagCells s.board + 1 := by
            rw [hf] at htog
            simpa using htog
          rw [htog2]
          push_cast
          ring
        · have hone : (if ((!true : Bool) = true) then (1 : Int) else -1)
              = -1 := rfl
          rw [hone]
          have htog2 : flagCells (toggleFlag s.board row col) + 1 =
              flagCells s.board := by
            rw [hf] at htog
            simpa using htog
          rw [← htog2]
          push_cast
          ring
  | reveal row col =>
    simp only [reducer]
    by_cases hterm : s.status = .won ∨ s.status = .lost
    · rw [if_pos hterm]
      exact ih
    · rw [if_neg hterm]
      by_cases hrf : (getCell s.board (row, col)).isRevealed = true ∨
          (getCell s.board (row, col)).isFlagged = true
      · rw [if_pos hrf]
        exact ih
      · rw [if_neg hrf]
        have hplaced : flagCells (placedBoard js s row col) =
            flagCells s.board := by
          unfold placedBoard
          split
          · rw [flagCells_computeAdjacent, flagCells_placeMines]
          · rfl
        split
        · show s.flagCount = (flagCells (revealAllMines
            (revealCell (placedBoard js s row col) row col)) : Int)
          rw [flagCells_revealAllMines, flagCells_revealCell, hplaced]
          exact ih
        · split
          · show s.flagCount = (flagCells
              (revealCell (placedBoard js s row col) row col) : Int)
            rw [flagCells_revealCell, hplaced]
            exact ih
          · show s.flagCount = (flagCells
              (revealCell (placedBoard js s row col) row col) : Int)
            rw [flagCells_revealCell, hplaced]
            exact ih
  | chord row col =>
    simp only [reducer]
    by_cases hst : s.status ≠ .playing
    · rw [if_pos hst]
      exact ih
    · rw [if_neg hst]
      cases hfind : findRevealedMine (chordReveal s.board row col) with
      | none =>
        simp only [hfind]
        split
        · show s.flagCount = (flagCells (chordReveal s.board row col) : Int)
          rw [flagCells_chordReveal]
          exact ih
        · show s.flagCount = (flagCells (chordReveal s.board row col) : Int)
          rw [flagCells_chordReveal]
          exact ih
      | some q =>
        simp only [hfind]
        show s.flagCount = (flagCells (revealAllMines
          (chordReveal s.board row col)) : Int)
        rw [flagCells_revealAllMines, flagCells_chordReveal]
        exact ih

/-- Claim C9: in every reachable state, `flagCount` equals the number of
flagged cells on the board. -/
theorem claim9_flagCount_invariant (s : GameState) (h : Reachable s) :
    s.flagCount = (flagCells s.board : Int) := by
  induction h with
  | init d => exact flagCount_initial d
  | step js a _ hin ih => exact flagCount_step js _ a hin ih

/-- Witness for claim C9 at a concrete reachable state: the initial
beginner state after one flag move. -/
theorem claim9_witness :
    (reducer (fun _ => 0) (makeInitialState .beginner) (.flag 2 3)).flagCount =
      (flagCells (reducer (fun _ => 0) (makeInitialState .beginner)
        (.flag 2 3)).board : Int) :=
  claim9_flagCount_invariant _
    (Reachable.step (fun _ => 0) (Action.flag 2 3)
      (Reachable.init .beginner)
      (show InBounds (makeInitialState Difficulty.beginner).board (2, 3)
        from by decide))

/-! ## Claim C3: revealed/flagged invariants -/

/-- No cell is simultaneously revealed and flagged, at position `p`. -/
def invAt (b : Board) (p : Pos) : Prop :=
  ¬ ((getCell b p).isRevealed = true ∧ (getCell b p).isFlagged = true)

instance (b : Board) (p : Pos) : Decidable (invAt b p) := by
  unfold invAt
  infer_instance

theorem placeMines_isRevealed (js : Nat → Nat) (b : Board) (mines sr sc : Nat)
    (p : Pos) :
    (getCell (placeMines js b mines sr sc) p).isRevealed =
      (getCell b p).isRevealed := by
  rw [getCell_placeMines]
  split
  · rfl
  · rename_i h
    rw [getCell_of_not_inBounds h]

theorem placeMines_isFlagged (js : Nat → Nat) (b : Board) (mines sr sc : Nat)
    (p : Pos) :
    (getCell (placeMines js b mines sr sc) p).isFlagged =
      (getCell b p).isFlagged := by
  rw [getCell_placeMines]
  split
  · rfl
  · rename_i h
    rw [getCell_of_not_inBounds h]

theorem getCell_computeAdjacent (b : Board) (p : Pos) :
    getCell (computeAdjacent b) p =
      if InBounds b p then
        (if (getCell b p).isMine then { getCell b p with adjacentMines := 0 }
          else { getCell b p with adjacentMines :=
            ((neighbors b p.1 p.2).filter fun n =>
              (getCell b n).isMine).length })
      else oobCell := by
  unfold computeAdjacent
  rw [getCell_mapCells]

theorem computeAdjacent_isRevealed (b : Board) (p : Pos) :
    (getCell (computeAdjacent b) p).isRevealed = (getCell b p).isRevealed := by
  rw [getCell_computeAdjacent]
  by_cases h : InBounds b p
  · rw [if_pos h]
    split <;> rfl
  · rw [if_neg h, getCell_of_not_inBounds h]

theorem computeAdjacent_isFlagged (b : Board) (p : Pos) :
    (getCell (computeAdjacent b) p).isFlagged = (getCell b p).isFlagged := by
  rw [getCell_computeAdjacent]
  by_cases h : InBounds b p
  · rw [if_pos h]
    split <;> rfl
  · rw [if_neg h, getCell_of_not_inBounds h]

theorem computeAdjacent_isMine (b : Board) (p : Pos) :
    (getCell (computeAdjacent b) p).isMine = (getCell b p).isMine := by
  rw [getCell_computeAdjacent]
  by_cases h : InBounds b p
  · rw [if_pos h]
    split <;> rfl
  · rw [if_neg h, getCell_of_not_inBounds h]

/-- Cells newly revealed by the flood fill were unflagged. -/
theorem bfsFuel_new_unflagged : ∀ (fuel : Nat) (b : Board) (q : List Pos)
    (x : Pos), (getCell (bfsFuel fuel b q) x).isRevealed = true →
    (getCell b x).isRevealed = true ∨ (getCell b x).isFlagged = false := by
  intro fuel
  induction fuel with
  | zero => intro b q x h; exact Or.inl h
  | succ fuel ih =>
    intro b q x h
    match q with
    | [] => exact Or.inl h
    | p :: rest =>
      simp only [bfsFuel] at h
      split at h
      · rcases ih _ _ x h with hrev | hfl
        · rcases (revealNbrs_revealed _ b x).mp hrev with hb | hnew
          · exact Or.inl hb
          · exact Or.inr (revealNbrs_mem _ b x hnew).2.2
        · rw [revealNbrs_isFlagged] at hfl
          exact Or.inr hfl
      · exact ih b rest x h

theorem revealCell_new_unflagged (b : Board) (row col : Nat) (x : Pos)
    (h : (getCell (revealCell b row col) x).isRevealed = true) :
    (getCell b x).isRevealed = true ∨ (getCell b x).isFlagged = false := by
  unfold revealCell at h
  split at h
  · exact Or.inl h
  · rename_i hguard
    rcases bfsFuel_new_unflagged _ _ _ x h with hrev | hfl
    · rcases (reveal1_revealed b (row, col) x).mp hrev with hb | rfl
      · exact Or.inl hb
      · push_neg at hguard
        exact Or.inr (by simpa using hguard.2)
    · rw [reveal1_isFlagged] at hfl
      exact Or.inr hfl

theorem chordFold_new_unflagged (b : Board) : ∀ (l : List Pos) (acc : Board)
    (x : Pos), (getCell (l.foldl (chordStep b) acc) x).isRevealed = true →
    (getCell acc x).isRevealed = true ∨ (getCell acc x).isFlagged = false := by
  intro l
  induction l with
  | nil => intro acc x h; exact Or.inl h
  | cons n ns ih =>
    intro acc x h
    simp only [List.foldl_cons] at h
    rcases ih (chordStep b acc n) x h with hrev | hfl
    · unfold chordStep at hrev
      split at hrev
      · rcases revealCell_new_unflagged _ _ _ x hrev with hb | hf
        · exact Or.inl hb
        · exact Or.inr hf
      · exact Or.inl hrev
    · unfold chordStep at hfl
      split at hfl
      · rw [revealCell_isFlagged] at hfl
        exact Or.inr hfl
      · exact Or.inr hfl

theorem chordReveal_new_unflagged (b : Board) (row col : Nat) (x : Pos)
    (h : (getCell (chordReveal b row col) x).isRevealed = true) :
    (getCell b x).isRevealed = true ∨ (getCell b x).isFlagged = false := by
  rw [chordReveal_eq_foldl] at h
  split at h
  · exact Or.inl h
  · split at h
    · exact Or.inl h
    · exact chordFold_new_unflagged b _ b x h

theorem chordReveal_isFlagged (b : Board) (row col : Nat) (x : Pos) :
    (getCell (chordReveal b row col) x).isFlagged =
      (getCell b x).isFlagged := by
  rw [chordReveal_eq_foldl]
  split
  · rfl
  · split
    · rfl
    · exact chordFold_isFlagged b _ b x

theorem chordReveal_isMine (b : Board) (row col : Nat) (x : Pos) :
    (getCell (chordReveal b row col) x).isMine = (getCell b x).isMine := by
  rw [chordReveal_eq_foldl]
  split
  · rfl
  · split
    · rfl
    · exact chordFold_isMine b _ b x

theorem chordReveal_revealed_mono (b : Board) (row col : Nat) (x : Pos)
    (h : (getCell b x).isRevealed = true) :
    (getCell (chordReveal b row col) x).isRevealed = true := by
  rw [chordReveal_eq_foldl]
  split
  · exact h
  · split
    · exact h
    · exact chordFold_mono b _ b x h

/-- Invariant preservation for the five non-`revealAllMines` operations. -/
theorem invAt_placeMines (js : Nat → Nat) (b : Board) (mines sr sc : Nat)
    (p : Pos) (h : invAt b p) : invAt (placeMines js b mines sr sc) p := by
  unfold invAt at h ⊢
  rw [placeMines_isRevealed, placeMines_isFlagged]
  exact h

theorem invAt_computeAdjacent (b : Board) (p : Pos) (h : invAt b p) :
    invAt (computeAdjacent b) p := by
  unfold invAt at h ⊢
  rw [computeAdjacent_isRevealed, computeAdjacent_isFlagged]
  exact h

theorem invAt_revealCell (b : Board) (row col : Nat) (p : Pos)
    (h : invAt b p) : invAt (revealCell b row col) p := by
  unfold invAt at h ⊢
  rw [revealCell_isFlagged]
  rintro ⟨hrev, hfl⟩
  rcases revealCell_new_unflagged b row col p hrev with hb | hf
  · exact h ⟨hb, hfl⟩
  · rw [hf] at hfl
    cases hfl

theorem invAt_toggleFlag (b : Board) (row col : Nat) (p : Pos)
    (h : invAt b p) : invAt (toggleFlag b row col) p := by
  unfold invAt at h ⊢
  rw [toggleFlag_isRevealed]
  rintro ⟨hrev, hfl⟩
  by_cases hp : p = (row, col)
  · subst hp
    unfold toggleFlag at hfl
    split at hfl
    · exact h ⟨hrev, hfl⟩
    · rename_i hguard
      simp only [Bool.not_eq_true] at hguard
      rw [hguard] at hrev
      cases hrev
  · rw [toggleFlag_isFlagged_other b row col hp] at hfl
    exact h ⟨hrev, hfl⟩

theorem invAt_chordReveal (b : Board) (row col : Nat) (p : Pos)
    (h : invAt b p) : invAt (chordReveal b row col) p := by
  unfold invAt at h ⊢
  rw [chordReveal_isFlagged]
  rintro ⟨hrev, hfl⟩
  rcases chordReveal_new_unflagged b row col p hrev with hb | hf
  · exact h ⟨hb, hfl⟩
  · rw [hf] at hfl
    cases hfl

/-- `revealAllMines` preserves the invariant at every cell that is not a
flagged mine. -/
theorem invAt_revealAllMines (b : Board) (p : Pos) (h : invAt b p)
    (hnfm : ¬ ((getCell b p).isMine = true ∧ (getCell b p).isFlagged = true)) :
    invAt (revealAllMines b) p := by
  unfold invAt at h ⊢
  rw [revealAllMines_isFlagged]
  rintro ⟨hrev, hfl⟩
  rcases (revealAllMines_revealed b p).mp hrev with hb | hm
  · exact h ⟨hb, hfl⟩
  · exact hnfm ⟨hm, hfl⟩

theorem placedBoard_isRevealed (js : Nat → Nat) (s : GameState)
    (row col : Nat) (p : Pos) :
    (getCell (placedBoard js s row col) p).isRevealed =
      (getCell s.board p).isRevealed := by
  unfold placedBoard
  split
  · rw [computeAdjacent_isRevealed, placeMines_isRevealed]
  · rfl

theorem placedBoard_isFlagged (js : Nat → Nat) (s : GameState)
    (row col : Nat) (p : Pos) :
    (getCell (placedBoard js s row col) p).isFlagged =
      (getCell s.board p).isFlagged := by
  unfold placedBoard
  split
  · rw [computeAdjacent_isFlagged, placeMines_isFlagged]
  · rfl

theorem invAt_placedBoard (js : Nat → Nat) (s : GameState) (row col : Nat)
    (p : Pos) (h : invAt s.board p) : invAt (placedBoard js s row col) p := by
  unfold invAt at h ⊢
  rw [placedBoard_isRevealed, placedBoard_isFlagged]
  exact h

/-- The four game moves never un-reveal a cell. -/
theorem reducer_revealed_mono (js : Nat → Nat) (s : GameState)
    (row col : Nat) (p : Pos) (h : (getCell s.board p).isRevealed = true) :
    ((getCell (reducer js s (.reveal row col)).board p).isRevealed = true) ∧
    ((getCell (reducer js s (.flag row col)).board p).isRevealed = true) ∧
    ((getCell (reducer js s (.chord row col)).board p).isRevealed = true) ∧
    ((getCell (reducer js s .tick).board p).isRevealed = true) := by
  refine ⟨?_, ?_, ?_, ?_⟩
  · simp only [reducer]
    split
    · exact h
    · split
      · exact h
      · have hplaced : (getCell (placedBoard js s row col) p).isRevealed = true := by
          rw [placedBoard_isRevealed]
          exact h
        have hrc : (getCell (revealCell (placedBoard js s row col) row col)
            p).isRevealed = true :=
          revealCell_revealed_mono _ _ _ p hplaced
        split
        · exact (revealAllMines_revealed _ p).mpr (Or.inl hrc)
        · split
          · exact hrc
          · exact hrc
  · simp only [reducer]
    split
    · exact h
    · split
      · exact h
      · show (getCell (toggleFlag s.board row col) p).isRevealed = true
        rw [toggleFlag_isRevealed]
        exact h
  · simp only [reducer]
    split
    · exact h
    · have hcr : (getCell (chordReveal s.board row col) p).isRevealed = true :=
        chordReveal_revealed_mono _ _ _ p h
      cases hfind : findRevealedMine (chordReveal s.board row col) with
      | none =>
        simp only [hfind]
        split
        · exact hcr
        · exact hcr
      | some q =>
        simp only [hfind]
        exact (revealAllMines_revealed _ p).mpr (Or.inl hcr)
  · simp only [reducer]
    split
    · exact h
    · exact h

/-- The four game moves can break the revealed-and-flagged invariant only
by leaving a flagged mine revealed (through `revealAllMines` on loss). -/
theorem reducer_invAt_weak (js : Nat → Nat) (s : GameState)
    (row col : Nat) (p : Pos) (h : invAt s.board p) :
    (∀ a, a = Action.reveal row col ∨ a = .flag row col ∨
        a = .chord row col ∨ a = .tick →
      (getCell (reducer js s a).board p).isRevealed = true →
      (getCell (reducer js s a).board p).isFlagged = true →
      (getCell (reducer js s a).board p).isMine = true) := by
  intro a ha hrev hfl
  have hcontra : ∀ b : Board, invAt b p →
      (getCell b p).isRevealed = true → (getCell b p).isFlagged = true →
      (getCell b p).isMine = true := by
    intro b hb h1 h2
    exact absurd ⟨h1, h2⟩ hb
  rcases ha with rfl | rfl | rfl | rfl
  · revert hrev hfl
    simp only [reducer]
    split
    · exact hcontra s.board h
    · split
      · exact hcontra s.board h
      · have hB2 : invAt (revealCell (placedBoard js s row col) row col) p :=
          invAt_revealCell _ _ _ p (invAt_placedBoard js s row col p h)
        split
        · -- loss: board is revealAllMines of the post-reveal board
          intro hrev hfl
          rw [revealAllMines_isFlagged] at hfl
          rcases (revealAllMines_revealed _ p).mp hrev with hb | hm
          · exact absurd ⟨hb, hfl⟩ hB2
          · rw [revealAllMines_isMine]
            exact hm
        · split
          · exact hcontra _ hB2
          · exact hcontra _ hB2
  · revert hrev hfl
    simp only [reducer]
    split
    · exact hcontra s.board h
    · split
      · exact hcontra s.board h
      · exact hcontra _ (invAt_toggleFlag s.board row col p h)
  · revert hrev hfl
    simp only [reducer]
    split
    · exact hcontra s.board h
    · have hB2 : invAt (chordReveal s.board row col) p :=
        invAt_chordReveal s.board row col p h
      cases hfind : findRevealedMine (chordReveal s.board row col) with
      | none =>
        simp only [hfind]
        split
        · exact hcontra _ hB2
        · exact hcontra _ hB2
      | some q =>
        simp only [hfind]
        intro hrev hfl
        rw [revealAllMines_isFlagged] at hfl
        rcases (revealAllMines_revealed _ p).mp hrev with hb | hm
        · exact absurd ⟨hb, hfl⟩ hB2
        · rw [revealAllMines_isMine]
          exact hm
  · revert hrev hfl
    simp only [reducer]
    split
    · exact hcontra s.board h
    · exact hcontra s.board h

/-- A board consisting of one flagged, unrevealed mine, and a playing state
with one revealed cell: the two inputs refuting claim C3. -/
def cexC3 : Board := [[{ makeCell with isMine := true, isFlagged := true }]]

def cexC3State : GameState :=
  { board := [[{ makeCell with isRevealed := true }]], status := .playing,
    difficulty := .beginner, flagCount := 0, elapsed := 0,
    startTime := none, losingCell := none }

/-- Claim C3 as stated is false, in two ways.  `revealAllMines` on a board
with a flagged mine leaves that cell both revealed and flagged; and the
NewGame move replaces the board wholesale, turning a revealed cell back
into an unrevealed one. -/
theorem claim3_counterexample :
    ((getCell (revealAllMines cexC3) (0, 0)).isRevealed = true ∧
      (getCell (revealAllMines cexC3) (0, 0)).isFlagged = true) ∧
    ((getCell cexC3State.board (0, 0)).isRevealed = true ∧
      (getCell (reducer (fun _ => 0) cexC3State Action.newGame).board
        (0, 0)).isRevealed = false) := by
  decide

/-- Claim C3, amended: every engine operation and every Reveal/Flag/Chord/
Tick move never changes `isRevealed` from true to false (NewGame and
SetDifficulty replace the board with a fresh one); `placeMines`,
`computeAdjacent`, `revealCell`, `toggleFlag` and `chordReveal` preserve
the no-revealed-and-flagged invariant at every cell; `revealAllMines`
preserves it at every cell that is not a flagged mine; and the four moves
can break it only by leaving a flagged *mine* both revealed and flagged. -/
theorem claim3_invariants :
    (∀ (js : Nat → Nat) (b : Board) (mines sr sc : Nat) (p : Pos),
      (getCell b p).isRevealed = true →
      (getCell (placeMines js b mines sr sc) p).isRevealed = true) ∧
    (∀ (b : Board) (p : Pos), (getCell b p).isRevealed = true →
      (getCell (computeAdjacent b) p).isRevealed = true) ∧
    (∀ (b : Board) (row col : Nat) (p : Pos),
      (getCell b p).isRevealed = true →
      (getCell (revealCell b row col) p).isRevealed = true) ∧
    (∀ (b : Board) (row col : Nat) (p : Pos),
      (getCell b p).isRevealed = true →
      (getCell (toggleFlag b row col) p).isRevealed = true) ∧
    (∀ (b : Board) (row col : Nat) (p : Pos),
      (getCell b p).isRevealed = true →
      (getCell (chordReveal b row col) p).isRevealed = true) ∧
    (∀ (b : Board) (p : Pos), (getCell b p).isRevealed = true →
      (getCell (revealAllMines b) p).isRevealed = true) ∧
    (∀ (js : Nat → Nat) (s : GameState) (row col : Nat) (p : Pos),
      (getCell s.board p).isRevealed = true →
      ((getCell (reducer js s (.reveal row col)).board p).isRevealed = true) ∧
      ((getCell (reducer js s (.flag row col)).board p).isRevealed = true) ∧
      ((getCell (reducer js s (.chord row col)).board p).isRevealed = true) ∧
      ((getCell (reducer js s .tick).board p).isRevealed = true)) ∧
    (∀ (js : Nat → Nat) (b : Board) (mines sr sc : Nat) (p : Pos),
      invAt b p → invAt (placeMines js b mines sr sc) p) ∧
    (∀ (b : Board) (p : Pos), invAt b p → invAt (computeAdjacent b) p) ∧
    (∀ (b : Board) (row col : Nat) (p : Pos),
      invAt b p → invAt (revealCell b row col) p) ∧
    (∀ (b : Board) (row col : Nat) (p : Pos),
      invAt b p → invAt (toggleFlag b row col) p) ∧
    (∀ (b : Board) (row col : Nat) (p : Pos),
      invAt b p → invAt (chordReveal b row col) p) ∧
    (∀ (b : Board) (p : Pos), invAt b p →
      ¬ ((getCell b p).isMine = true ∧ (getCell b p).isFlagged = true) →
      invAt (revealAllMines b) p) ∧
    (∀ (js : Nat → Nat) (s : GameState) (row col : Nat) (p : Pos),
      invAt s.board p →
      ∀ a, a = Action.reveal row col ∨ a = .flag row col ∨
          a = .chord row col ∨ a = .tick →
        (getCell (reducer js s a).board p).isRevealed = true →
        (getCell (reducer js s a).board p).isFlagged = true →
        (getCell (reducer js s a).board p).isMine = true) := by
  refine ⟨?_, ?_, ?_, ?_, ?_, ?_, ?_, ?_, ?_, ?_, ?_, ?_, ?_, ?_⟩
  · intro js b mines sr sc p h
    rw [placeMines_isRevealed]
    exact h
  · intro b p h
    rw [computeAdjacent_isRevealed]
    exact h
  · intro b row col p h
    exact revealCell_revealed_mono b row col p h
  · intro b row col p h
    rw [toggleFlag_isRevealed]
    exact h
  · intro b row col p h
    exact chordReveal_revealed_mono b row col p h
  · intro b p h
    exact (revealAllMines_revealed b p).mpr (Or.inl h)
  · intro js s row col p h
    exact reducer_revealed_mono js s row col p h
  · intro js b mines sr sc p h
    exact invAt_placeMines js b mines sr sc p h
  · intro b p h
    exact invAt_computeAdjacent b p h
  · intro b row col p h
    exact invAt_revealCell b row col p h
  · intro b row col p h
    exact invAt_toggleFlag b row col p h
  · intro b row col p h
    exact invAt_chordReveal b row col p h
  · intro b p h hnfm
    exact invAt_revealAllMines b p h hnfm
  · intro js s row col p h
    exact reducer_invAt_weak js s row col p h

/-- Witness for the amended claim C3: a revealed cell stays revealed
through `revealCell`, and the invariant survives `toggleFlag`, on a
concrete board. -/
theorem claim3_witness :
    ((getCell cexC3State.board (0, 0)).isRevealed = true ∧
      invAt cexC3State.board (0, 0)) ∧
    ((getCell (revealCell cexC3State.board 0 0) (0, 0)).isRevealed = true ∧
      invAt (toggleFlag cexC3State.board 0 0) (0, 0)) :=
  ⟨⟨by decide, by decide⟩,
    claim3_invariants.2.2.1 cexC3State.board 0 0 (0, 0) (by decide),
    claim3_invariants.2.2.2.2.2.2.2.2.2.2.1 cexC3State.board 0 0 (0, 0)
      (by decide)⟩

end Minesweeper
